import Mathlib

/-!
Verification development for the `hlgen` project tool (`src/hlgen.py`).

The embedding covers the two cores named by the spec:

* the configuration extraction engine: `BuildConfig.from_makefile` (the regex
  line classifier `^CFG__(\w+?)(?:\s|__(\w+)?).*?=\s*(.*?)\s*$` applied with
  `re.match`), and `ProjectMakefile._parse_makefile` (the line-scanning fold
  that builds the table of valid and invalid configurations and the three
  anchor positions), here `stepLine` / `parseMakefile`;
* the template expansion engine `expand_template` (the single-pass
  `re.sub(r'\$\x7b([^\x7d]+)\x7d', ...)` scanner together with the
  identifier-expression evaluator), here `subPH` / `expand_template`;
* the generator-name derivation `os.path.basename(g).rstrip('.gen.cpp')`,
  here `genFromGenFile`.

Python strings are modelled as `String` viewed through `String.data`
(`List Char`); machine-level details (file IO, argparse, printing) are outside
the modelled core. Python `None`-or-default idioms (`x or ''`) are modelled
explicitly. Python `list.remove` removes the first element equal (by object
identity) to its argument; `BuildConfig` objects stored in `configurations`
never coincide except when all four fields coincide, and at most one entry per
(generator, subconfig) pair is ever present, so `List.erase` (first
value-equal occurrence) is a faithful rendering.
-/

/-- The character `\x7b`, kept as a named constant. -/
def lbrace : Char := Char.ofNat 123

/-- The character `\x7d`, kept as a named constant. -/
def rbrace : Char := Char.ofNat 125

/-- The character starting a template placeholder. -/
def dollar : Char := '$'

/-- Python regex `\w` on ASCII input: letters, digits and underscore. -/
def isWordChar (c : Char) : Bool := c.isAlphanum || c == '_'

/-- Python regex `\s` / `str.strip` whitespace on ASCII input. -/
def pyIsSpace (c : Char) : Bool :=
  c == ' ' || c == '\t' || c == '\n' || c == '\r' || c == Char.ofNat 11 || c == Char.ofNat 12

/-- `startsWithL l p` : `p` is a literal prefix of `l` (Python `str.startswith`). -/
def startsWithL (l p : List Char) : Bool := p.isPrefixOf l

/-- Python `str.strip()`: drop whitespace from both ends. -/
def pyStripL (l : List Char) : List Char :=
  ((l.dropWhile pyIsSpace).reverse.dropWhile pyIsSpace).reverse

/-- One parsed configuration line: Python class `BuildConfig` (`src/hlgen.py:15`),
fields `gen`, `subcfg`, `val`, `orig`. -/
structure BuildConfig where
  gen : String
  subcfg : String
  val : String
  orig : Option String
  deriving DecidableEq, Repr

/-- Python `config_name or ''` applied to the optional second regex group. -/
def subcfgOr : Option String → String
  | some s => s
  | none => ""

/-- The suffix `.*?=\s*(.*?)\s*$` of the configuration-line regex, applied after
the generator/subconfig part.  The lazy `.*?` scans (over non-newline
characters) to the next `=`; after an `=` the value group captures the
remainder stripped of whitespace; if that stripped core still contains a
newline the engine backtracks and looks for a later `=`. -/
def valueOf (rest : List Char) : Option String :=
  let v := pyStripL rest
  if v.contains '\n' then none else some (String.mk v)

/-- Scan for the `=` of the configuration-line regex; see `valueOf`. -/
def findEq : List Char → Option String
  | [] => none
  | c :: rest =>
    if c == '=' then
      match valueOf rest with
      | some v => some v
      | none => findEq rest
    else if c == '\n' then none
    else findEq rest

/-- The part `(?:\s|__(\w+)?).*?=\s*(.*?)\s*$` of the configuration-line regex
that follows the generator group: either one whitespace character, or `__`
followed by an optional (greedy, maximal) word-character subconfig group.
Both alternation branches start with distinct characters, and shrinking the
greedy subconfig group can never help the tail (neither `=` nor a newline is a
word character), so no further backtracking is needed. -/
def afterGen : List Char → Option (Option String × String)
  | [] => none
  | c :: rest =>
    if pyIsSpace c then (findEq rest).map (fun v => (none, v))
    else if c == '_' then
      match rest with
      | c2 :: rs =>
        if c2 == '_' then
          let sub := rs.takeWhile isWordChar
          (findEq (rs.dropWhile isWordChar)).map
            (fun v => ((if sub.isEmpty then none else some (String.mk sub)), v))
        else none
      | [] => none
    else none

/-- The lazy generator group `(\w+?)`: candidate generator names are tried
shortest-first; `acc` is the (nonempty, all word characters) candidate built so
far and `rest` the remainder of the line. -/
def searchGen (acc : List Char) :
    List Char → Option (List Char × Option String × String)
  | [] => none
  | c :: rs =>
    match afterGen (c :: rs) with
    | some sv => some (acc, sv.1, sv.2)
    | none => if isWordChar c then searchGen (acc ++ [c]) rs else none

/-- The literal marker `CFG__` opening a configuration line. -/
def markerL : List Char := ("CFG__").data

/-- Python `BuildConfig.from_makefile` (`src/hlgen.py:22`):
`re.match(r'^CFG__(\w+?)(?:\s|__(\w+)?).*?=\s*(.*?)\s*$', cfg)`, building
`BuildConfig(generator, config_name, value, source=cfg)` on success.
`re.match` anchors at the start of the line only. -/
def from_makefile (line : String) : Option BuildConfig :=
  if startsWithL line.data markerL then
    match line.data.drop 5 with
    | c :: rest =>
      if isWordChar c then
        (searchGen [c] rest).map
          (fun r => { gen := String.mk r.1, subcfg := subcfgOr r.2.1,
                      val := r.2.2, orig := some line })
      else none
    | [] => none
  else none

/-! ### Association lists modelling Python dicts

Python dicts preserve insertion order; writing to an existing key updates the
value in place, writing a fresh key appends.  Keys here are strings. -/

/-- Dict lookup (`d[k]` / `k in d`). -/
def alistGet {β : Type} (d : List (String × β)) (k : String) : Option β :=
  (d.find? (fun p => p.1 == k)).map (fun p => p.2)

/-- Dict write `d[k] = v`: update in place if present, else append. -/
def alistInsert {β : Type} (d : List (String × β)) (k : String) (v : β) :
    List (String × β) :=
  if (d.find? (fun p => p.1 == k)).isSome then
    d.map (fun p => if p.1 == k then (k, v) else p)
  else d ++ [(k, v)]

/-- Two-level lookup `generator2configs[g][sc]`. -/
def alistGet2 (d : List (String × List (String × BuildConfig))) (g sc : String) :
    Option BuildConfig :=
  match alistGet d g with
  | some inner => alistGet inner sc
  | none => none

/-- The mutable collections of `ProjectMakefile._parse_makefile`
(`src/hlgen.py:52`): the ordered valid configurations, the ordered invalid
ones, the dict `generator2configs`, and the list of emitted warnings (the
Python code prints them to stderr via `warn`). -/
structure Table where
  configurations : List BuildConfig
  invalid : List BuildConfig
  g2c : List (String × List (String × BuildConfig))
  warnings : List String
  deriving DecidableEq, Repr

/-- `generator2configs` after the registry initialisation loop
(`src/hlgen.py:64`): one empty inner dict per known generator name. -/
def initG2c (known : List String) : List (String × List (String × BuildConfig)) :=
  known.foldl (fun d g => alistInsert d g []) []

/-- Warning text of `src/hlgen.py:88`. -/
def warnUnknown (g : String) (i : Nat) : String :=
  ("invalid configuration specified for ") ++ g ++ (" in Makefile:") ++ toString (i + 1)

/-- Warning text of `src/hlgen.py:92`. -/
def warnOverride (g : String) (i : Nat) : String :=
  ("using overriding configuration for ") ++ g ++ (" from Makefile:") ++ toString (i + 1)

/-- The body of the `if cfg_end == num_lines and config:` block of
`_parse_makefile` (`src/hlgen.py:86`-`src/hlgen.py:97`), processing one parsed
configuration `c` found at line index `i` (except for `last_cfg`, which lives
in `ParseState`). -/
def applyConfig (t : Table) (i : Nat) (c : BuildConfig) : Table :=
  match alistGet t.g2c c.gen with
  | none =>
    { t with warnings := t.warnings ++ [warnUnknown c.gen i],
             invalid := t.invalid ++ [c] }
  | some inner =>
    match alistGet inner c.subcfg with
    | some old =>
      { t with warnings := t.warnings ++ [warnOverride c.gen i],
               configurations := (t.configurations.erase old) ++ [c],
               invalid := t.invalid ++ [old],
               g2c := alistInsert t.g2c c.gen (alistInsert inner c.subcfg c) }
    | none =>
      { t with configurations := t.configurations ++ [c],
               g2c := alistInsert t.g2c c.gen (alistInsert inner c.subcfg c) }

/-- A default configuration synthesized for a generator that received no
declarations (`src/hlgen.py:106`): `BuildConfig(gen, '', '')`, no source. -/
def mkDefault (g : String) : BuildConfig := ⟨g, "", "", none⟩

/-- The default-synthesis loop of `_parse_makefile` (`src/hlgen.py:103`):
every generator whose inner dict is still empty receives a default
configuration, appended to `configurations` in dict (registry) order. -/
def applyDefaults (t : Table) : Table :=
  { t with
    g2c := t.g2c.map (fun p => if p.2.isEmpty then (p.1, [(("" : String), mkDefault p.1)]) else p),
    configurations := t.configurations ++
      t.g2c.filterMap (fun p => if p.2.isEmpty then some (mkDefault p.1) else none) }

/-- The whole mutable state of the scanning loop of `_parse_makefile`:
the flag `saw_generator_comment`, the indices `after_comment`, `cfg_start`,
`cfg_end`, `last_cfg` (each using `num_lines` as the "unset" sentinel, as in
the source), and the collections. -/
structure ParseState where
  saw : Bool
  after : Nat
  cfgStart : Nat
  cfgEnd : Nat
  lastCfg : Nat
  tbl : Table
  deriving Repr

/-- State at `src/hlgen.py:68`, before the scanning loop. -/
def initState (N : Nat) (known : List String) : ParseState :=
  ⟨false, N, N, N, N, ⟨[], [], initG2c known, []⟩⟩

/-- The header-comment marker of `src/hlgen.py:77`. -/
def headerMarker : List Char := ("# Configure generators").data

/-- A single `#` character, for `line.strip().startswith('#')`. -/
def hashL : List Char := ("#").data

/-- One iteration of the scanning loop of `_parse_makefile`
(`src/hlgen.py:71`-`src/hlgen.py:101`) on the line with index `i`. -/
def stepLine (N : Nat) (s : ParseState) (p : Nat × String) : ParseState :=
  let i := p.1
  let line := p.2
  if pyStripL line.data == [] then
    if s.saw && s.after == N then { s with after := i } else s
  else
    let saw := s.saw || startsWithL line.data headerMarker
    let after :=
      if saw && s.after == N && !(startsWithL (pyStripL line.data) hashL) then i
      else s.after
    match from_makefile line with
    | some c =>
      let cfgStart := if s.cfgStart == N then i else s.cfgStart
      if s.cfgEnd == N then
        { s with saw := saw, after := after, cfgStart := cfgStart, lastCfg := i,
                 tbl := applyConfig s.tbl i c }
      else
        { s with saw := saw, after := after, cfgStart := cfgStart }
    | none =>
      if s.cfgStart < N && s.cfgEnd == N then
        { s with saw := saw, after := after, cfgEnd := s.lastCfg + 1 }
      else
        { s with saw := saw, after := after }

/-- `ProjectMakefile._parse_makefile` (`src/hlgen.py:52`) on a snapshot of the
build-file lines (as `readlines` returns them) and the list of registry
generator names (the result of the `glob` loop, see `genFromGenFile`):
scan every line in order, then synthesize defaults.  The three anchors are
left in the state; `configurations` and `invalid_configurations` are the
returned collections. -/
def parseMakefile (lines : List String) (known : List String) : ParseState :=
  let N := lines.length
  let s := (lines.enum).foldl (stepLine N) (initState N known)
  { s with tbl := applyDefaults s.tbl }

/-- The configuration declarations actually processed by the scanning loop, in
order: blank lines are skipped outright, the first non-blank non-configuration
line after the first configuration line closes the block, and everything later
is ignored.  `started` records whether a configuration line has been seen. -/
def scanDecls : Bool → List (Nat × String) → List (Nat × BuildConfig)
  | _, [] => []
  | started, p :: rest =>
    if pyStripL p.2.data == [] then scanDecls started rest
    else
      match from_makefile p.2 with
      | some c => (p.1, c) :: scanDecls true rest
      | none => if started then [] else scanDecls started rest

/-- The declarations of the configuration block of a build file. -/
def blockDecls (lines : List String) : List (Nat × BuildConfig) :=
  scanDecls false lines.enum

/-- Folding `applyConfig` over a list of processed declarations. -/
def runDecls (t : Table) (ds : List (Nat × BuildConfig)) : Table :=
  ds.foldl (fun t p => applyConfig t p.1 p.2) t

/-! ### Generator registry names

The registry loop (`src/hlgen.py:64`) derives a generator name from a file
named `<name>.gen.cpp` via `os.path.basename(gen).rstrip('.gen.cpp')`. -/

/-- Python `str.rstrip(chars)`: remove trailing characters drawn from the
character *set* `chars` (not the literal suffix). -/
def pyRstrip (s : String) (chars : List Char) : String :=
  String.mk ((s.data.reverse.dropWhile (fun c => chars.contains c)).reverse)

/-- The characters of `'.gen.cpp'`, as passed to `rstrip`. -/
def genSuffixChars : List Char := (".gen.cpp").data

/-- Registry name derived from a generator file's base name
(`src/hlgen.py:65`). -/
def genFromGenFile (fname : String) : String := pyRstrip fname genSuffixChars

/-- Exact-suffix removal, as the spec's generator file-naming convention
describes it: `<name>.gen.cpp` denotes the generator `<name>`; other names
denote nothing.  Modelled from the spec for comparison with
`genFromGenFile`. -/
def removeGenSuffixExact (fname : String) : Option String :=
  if fname.data.reverse.take 8 == genSuffixChars.reverse then
    some (String.mk (fname.data.take (fname.data.length - 8)))
  else none

/-! ### Template expansion (`expand_template`, `src/hlgen.py:122`)

The scanner models `re.sub(r'\$\x7b([^\x7d]+)\x7d', repl, template)`: a single
left-to-right pass; at each position a match needs `$`, `\x7b`, at least one
non-`\x7d` character (the greedy character class takes the maximal run) and a
closing `\x7d`; on failure the scanner advances one character.  The expression
evaluator is modelled on the fragment the build tool's skeletons use (a bare
identifier expression): `ast.parse` yields a single `Name` node, the name is
lower-cased, and the argument passed to the compiled lambda is
`str(env.get(name)) or ''`.  An expression outside this fragment is evaluated
by the host Python interpreter; the model returns `none` for it (and for the
whole expansion containing it) rather than guessing. -/

/-- `(l.dropWhile p).length ≤ l.length`. -/
theorem dropWhile_length_le (p : Char → Bool) (l : List Char) :
    (l.dropWhile p).length ≤ l.length := by
  induction l with
  | nil => simp
  | cons a t ih =>
    by_cases h : p a
    · rw [List.dropWhile_cons_of_pos h]; exact Nat.le_succ_of_le ih
    · rw [List.dropWhile_cons_of_neg h]

/-- The head of a nonempty `dropWhile` result fails the predicate. -/
theorem dropWhile_cons_head {p : Char → Bool} {l r : List Char} {c : Char}
    (h : l.dropWhile p = c :: r) : p c = false := by
  induction l with
  | nil => simp at h
  | cons a t ih =>
    by_cases ha : p a
    · rw [List.dropWhile_cons_of_pos ha] at h; exact ih h
    · rw [List.dropWhile_cons_of_neg ha] at h
      cases h
      simpa using ha

/-- Attempt of the regex `([^\x7d]+)\x7d` right after a `$\x7b`: the greedy
character class takes the maximal run of non-`\x7d` characters (it must be
nonempty) and the next character must be the closing `\x7d`; return the
content and the remainder after the closing brace. -/
def phSplit (l : List Char) : Option (List Char × List Char) :=
  let content := l.takeWhile (fun c => !(c == rbrace))
  match l.dropWhile (fun c => !(c == rbrace)) with
  | c :: r =>
    if content.isEmpty then none
    else if c == rbrace then some (content, r) else none
  | [] => none

/-- A successful `phSplit` leaves a strictly shorter remainder. -/
theorem phSplit_snd_length {l : List Char} {cr : List Char × List Char}
    (h : phSplit l = some cr) : cr.2.length < l.length := by
  unfold phSplit at h
  cases hdw : l.dropWhile (fun c => !(c == rbrace)) with
  | nil => rw [hdw] at h; simp at h
  | cons c r =>
    rw [hdw] at h
    by_cases he : (l.takeWhile (fun c => !(c == rbrace))).isEmpty
    · simp [he] at h
    · simp only [he, if_false, Bool.false_eq_true] at h
      by_cases hc : (c == rbrace) = true
      · simp only [hc, if_true] at h
        cases h
        show r.length < l.length
        have h2 := dropWhile_length_le (fun c => !(c == rbrace)) l
        rw [hdw] at h2
        simp only [List.length_cons] at h2
        omega
      · simp [hc] at h

/-- The placeholder scanner of `expand_template`: one pass over the template
text, each placeholder's content handed to `f` (the expression evaluator),
which may fail (`none`) for expressions outside the modelled fragment.  When
no placeholder starts at the current position the scanner advances one
character, exactly as `re.sub` does after a failed match attempt. -/
def subPH (f : String → Option String) : List Char → Option (List Char)
  | [] => some []
  | a :: rest =>
    if a == dollar then
      match rest with
      | [] => some [a]
      | b :: rest2 =>
        if b == lbrace then
          match hps : phSplit rest2 with
          | some cr =>
            match f (String.mk cr.1) with
            | some r => (subPH f cr.2).map (fun t => r.data ++ t)
            | none => none
          | none => (subPH f (b :: rest2)).map (fun t => a :: t)
        else (subPH f (b :: rest2)).map (fun t => a :: t)
    else (subPH f rest).map (fun t => a :: t)
  termination_by l => l.length
  decreasing_by
  · have := phSplit_snd_length hps
    simp only [List.length_cons]
    omega
  · simp only [List.length_cons]; omega
  · simp only [List.length_cons]; omega
  · simp only [List.length_cons]; omega

/-- Whether a placeholder match starts at the head of `l`. -/
def startsPH (l : List Char) : Bool :=
  match l with
  | a :: b :: rest2 =>
    a == dollar && b == lbrace &&
    !(rest2.takeWhile (fun c => !(c == rbrace))).isEmpty &&
    !(rest2.dropWhile (fun c => !(c == rbrace))).isEmpty
  | _ => false

/-- Whether the text contains a `$\x7b...\x7d` placeholder anywhere. -/
def hasPH : List Char → Bool
  | [] => false
  | a :: rest => startsPH (a :: rest) || hasPH rest

/-- ASCII lower-casing, Python `str.lower` on the identifiers in play. -/
def lowerStr (s : String) : String := String.mk (s.data.map Char.toLower)

/-- Python keywords and keyword constants: sources for which `ast.parse` does
not produce a bare `Name` expression. -/
def pyKeywords : List String :=
  ["False", "None", "True", "and", "as", "assert", "async", "await", "break",
   "class", "continue", "def", "del", "elif", "else", "except", "finally",
   "for", "from", "global", "if", "import", "in", "is", "lambda", "nonlocal",
   "not", "or", "pass", "raise", "return", "try", "while", "with", "yield"]

/-- Recognise an expression source that is a single identifier (the modelled
fragment): `ast.parse(src, mode='eval')` then yields `Expression(Name(src))`. -/
def parseNameExpr (src : String) : Option String :=
  match src.data with
  | [] => none
  | c :: _ =>
    if (c.isAlpha || c == '_') && src.data.all isWordChar &&
        !(pyKeywords.contains src) then some src
    else none

/-- Python `str(x)` on an optional string: `None` prints as `"None"`. -/
def strOfOpt : Option String → String
  | some v => v
  | none => "None"

/-- Python `x or ''` on a string (the identity, kept for fidelity to
`str(env.get(name)) or ''` at `src/hlgen.py:164`). -/
def pyOrEmpty (a : String) : String := if a == ("") then ("") else a

/-- `\x7bk.lower(): v ...\x7d`: the environment dict with lower-cased keys
(`src/hlgen.py:125`); later duplicates overwrite earlier ones.  The `kwargs`
update of `src/hlgen.py:126` is the same construction, so a merged input list
models both. -/
def buildEnv (env : List (String × String)) : List (String × String) :=
  env.foldl (fun d p => alistInsert d (lowerStr p.1) p.2) []

/-- The `expand` closure of `src/hlgen.py:159` on the modelled identifier
fragment: parse the expression, lower-case the free name, bind it to
`str(env.get(name)) or ''` and return it (the compiled lambda body is the bare
name).  `none` marks an expression outside the modelled fragment. -/
def expandExpr (envd : List (String × String)) (src : String) : Option String :=
  match parseNameExpr src with
  | some n => some (pyOrEmpty (strOfOpt (alistGet envd (lowerStr n))))
  | none => none

/-- Python `expand_template(template, env)` (`src/hlgen.py:122`): lower-case
the environment keys, then substitute every placeholder in one pass. -/
def expand_template (env : List (String × String)) (template : String) :
    Option String :=
  (subPH (expandExpr (buildEnv env)) template.data).map String.mk

/-- The template text `$\x7b w \x7d` (one placeholder around `w`). -/
def placeholderOf (w : String) : String :=
  String.mk (dollar :: lbrace :: (w.data ++ [rbrace]))

/-- `String.mk s.data = s`. -/
theorem strMk_data (s : String) : String.mk s.data = s := by
  cases s
  rfl

/-- A successful `phSplit` means a placeholder starts at `$\x7b...`. -/
theorem startsPH_of_phSplit {rest2 : List Char} {cr : List Char × List Char}
    (h : phSplit rest2 = some cr) :
    startsPH (dollar :: lbrace :: rest2) = true := by
  unfold phSplit at h
  unfold startsPH
  cases hdw : rest2.dropWhile (fun c => !(c == rbrace)) with
  | nil => rw [hdw] at h; simp at h
  | cons c r =>
    rw [hdw] at h
    by_cases he : (rest2.takeWhile (fun c => !(c == rbrace))).isEmpty
    · simp [he] at h
    · simp [he, hdw]

/-- Unfolding `subPH` on the empty list. -/
theorem subPH_nil (f : String → Option String) : subPH f [] = some [] := by
  rw [subPH.eq_def]

/-- Scanning text with no placeholder returns it unchanged, whatever the
evaluator does. -/
theorem subPH_of_not_hasPH (f : String → Option String) :
    ∀ (n : Nat) (l : List Char), l.length ≤ n → hasPH l = false → subPH f l = some l := by
  intro n
  induction n with
  | zero =>
    intro l hl _
    have : l = [] := List.eq_nil_of_length_eq_zero (Nat.le_zero.mp hl)
    subst this
    exact subPH_nil f
  | succ n ih =>
    intro l hl hph
    match l with
    | [] => exact subPH_nil f
    | a :: rest =>
      have hph2 : hasPH rest = false := by
        unfold hasPH at hph
        exact (Bool.or_eq_false_iff.mp hph).2
      have hst : startsPH (a :: rest) = false := by
        unfold hasPH at hph
        exact (Bool.or_eq_false_iff.mp hph).1
      have hrest : rest.length ≤ n := by
        simp only [List.length_cons] at hl
        omega
      rw [subPH.eq_def]
      by_cases ha : (a == dollar) = true
      · simp only [ha, if_true]
        match rest with
        | [] => rfl
        | b :: rest2 =>
          by_cases hb : (b == lbrace) = true
          · simp only [hb, if_true]
            cases hps : phSplit rest2 with
            | some cr =>
              exfalso
              have ha2 : a = dollar := by simpa using ha
              have hb2 : b = lbrace := by simpa using hb
              subst ha2; subst hb2
              rw [startsPH_of_phSplit hps] at hst
              simp at hst
            | none =>
              rw [ih (b :: rest2) hrest hph2]
              rfl
          · simp only [hb, if_false, Bool.false_eq_true]
            rw [ih (b :: rest2) hrest hph2]
            rfl
      · simp only [ha, if_false, Bool.false_eq_true]
        rw [ih rest hrest hph2]
        rfl

/-- `takeWhile`/`dropWhile` on `w ++ x :: s` when all of `w` satisfies the
predicate and `x` fails it. -/
theorem takeWhile_dropWhile_append {p : Char → Bool} {w : List Char}
    (x : Char) (s : List Char) (hw : ∀ c ∈ w, p c = true) (hx : p x = false) :
    (w ++ x :: s).takeWhile p = w ∧ (w ++ x :: s).dropWhile p = x :: s := by
  induction w with
  | nil =>
    constructor
    · rw [List.nil_append, List.takeWhile_cons_of_neg (by simp [hx])]
    · rw [List.nil_append, List.dropWhile_cons_of_neg (by simp [hx])]
  | cons c w' ih =>
    have hc : p c = true := hw c (by simp)
    have ih2 := ih (fun d hd => hw d (by simp [hd]))
    constructor
    · rw [List.cons_append, List.takeWhile_cons_of_pos hc, ih2.1]
    · rw [List.cons_append, List.dropWhile_cons_of_pos hc, ih2.2]

/-- `phSplit` on a well-formed placeholder body `w ++ \x7d ++ s`. -/
theorem phSplit_exact {w : List Char} (s : List Char)
    (hw : ∀ c ∈ w, (c == rbrace) = false) (hne : w ≠ []) :
    phSplit (w ++ rbrace :: s) = some (w, s) := by
  have h := takeWhile_dropWhile_append (p := fun c => !(c == rbrace)) (w := w)
    rbrace s (fun c hc => by simp [hw c hc]) (by simp)
  unfold phSplit
  rw [h.1, h.2]
  simp [hne]

/-- Scanning `p ++ l` when `p` is free of `$`: `p` is copied verbatim. -/
theorem subPH_append_noDollar (f : String → Option String) (p l : List Char)
    (hp : dollar ∉ p) :
    subPH f (p ++ l) = (subPH f l).map (fun t => p ++ t) := by
  induction p with
  | nil =>
    cases h : subPH f l <;> simp [h]
  | cons c p' ih =>
    have hc : (c == dollar) = false := by
      have : c ≠ dollar := fun hcd => hp (by simp [hcd])
      simpa using this
    have ih2 := ih (fun hd => hp (by simp [hd]))
    rw [List.cons_append, subPH.eq_def]
    simp only [hc, Bool.false_eq_true, if_false]
    rw [ih2]
    cases h : subPH f l <;> simp [h]

/-- Scanning a placeholder at the head of the text: the content is handed to
the evaluator and the scan continues after the closing brace. -/
theorem subPH_placeholder (f : String → Option String) {w : List Char}
    (s : List Char) (hw : ∀ c ∈ w, (c == rbrace) = false) (hne : w ≠ []) :
    subPH f (dollar :: lbrace :: (w ++ rbrace :: s)) =
      match f (String.mk w) with
      | some r => (subPH f s).map (fun t => r.data ++ t)
      | none => none := by
  rw [subPH.eq_def]
  simp only [beq_self_eq_true, if_true]
  cases hps : phSplit (w ++ rbrace :: s) with
  | none => rw [phSplit_exact s hw hne] at hps; simp at hps
  | some cr =>
    rw [phSplit_exact s hw hne] at hps
    cases hps
    rfl

/-! ### Claim theorems: template expansion and registry names -/

/-- Claim C4 (code bug witness): the registry loop derives the generator name
with `rstrip('.gen.cpp')`, which strips a trailing character *set*; for the
file `scale.gen.cpp` it produces `scal`, while the spec's file-naming
convention (exact removal of the literal suffix `.gen.cpp`) names the
generator `scale`. -/
theorem c4_gen_name_rstrip_over_strips :
    genFromGenFile ("scale.gen.cpp") = ("scal") ∧
    removeGenSuffixExact ("scale.gen.cpp") = some ("scale") := by
  constructor
  · rfl
  · rfl

/-- Claim C10: template expansion applied to text containing no placeholder
returns the text unchanged, for every environment. -/
theorem c10_no_placeholder_identity (env : List (String × String)) (t : String)
    (h : hasPH t.data = false) : expand_template env t = some t := by
  unfold expand_template
  rw [subPH_of_not_hasPH _ t.data.length t.data le_rfl h]
  simp [strMk_data]

/-- Witness for C10 at a concrete placeholder-free template. -/
theorem c10_no_placeholder_identity_witness :
    hasPH ("hello $world").data = false ∧
    expand_template [] ("hello $world") = some ("hello $world") :=
  ⟨by decide, c10_no_placeholder_identity [] ("hello $world") (by decide)⟩

/-- String append is list append on the character data. -/
theorem str_append_data (x y : String) : x ++ y = String.mk (x.data ++ y.data) := by
  cases x
  cases y
  rfl

/-- What a successful `parseNameExpr` guarantees about the source. -/
theorem parseNameExpr_some {w n : String} (h : parseNameExpr w = some n) :
    n = w ∧ w.data ≠ [] ∧ ∀ c ∈ w.data, isWordChar c = true := by
  unfold parseNameExpr at h
  cases hd : w.data with
  | nil => rw [hd] at h; exact absurd h (by simp)
  | cons c cs =>
    rw [hd] at h
    by_cases hg : ((c.isAlpha || c == '_') && (c :: cs).all isWordChar &&
        !(pyKeywords.contains w)) = true
    · simp only [hg, if_true, Option.some.injEq] at h
      refine ⟨h.symm, by simp [hd], ?_⟩
      intro d hdm
      have hall : (c :: cs).all isWordChar = true := by
        simp only [Bool.and_eq_true] at hg
        exact hg.1.2
      exact List.all_eq_true.mp hall d hdm
    · simp only [if_neg hg] at h
      exact absurd h (by simp)

/-- A word character is not a closing brace. -/
theorem wordChar_ne_rbrace {c : Char} (h : isWordChar c = true) :
    (c == rbrace) = false := by
  by_contra hcon
  have hc : (c == rbrace) = true := by
    cases hbe : (c == rbrace) with
    | false => exact absurd hbe hcon
    | true => rfl
  have hcr : c = rbrace := by simpa using hc
  subst hcr
  exact absurd h (by decide)

/-- Expanding a template `p ++ $\x7bw\x7d ++ s` whose placeholder body is a
bare identifier and whose prefix contains no `$`: the placeholder resolves to
`str(env.get(w.lower())) or ''` and the suffix is expanded independently. -/
theorem expand_template_ident (env : List (String × String)) (p w s : String)
    (hp : dollar ∉ p.data) (hw : (parseNameExpr w).isSome = true) :
    expand_template env (p ++ placeholderOf w ++ s) =
      (expand_template env s).map
        (fun r => p ++ pyOrEmpty (strOfOpt (alistGet (buildEnv env) (lowerStr w))) ++ r) := by
  obtain ⟨n, hn⟩ := Option.isSome_iff_exists.mp hw
  obtain ⟨hnw, hne, hall⟩ := parseNameExpr_some hn
  rw [hnw] at hn
  unfold expand_template
  have hdata : (p ++ placeholderOf w ++ s).data =
      p.data ++ (dollar :: lbrace :: (w.data ++ rbrace :: s.data)) := by
    rw [str_append_data, str_append_data]
    simp [placeholderOf]
  rw [hdata]
  rw [subPH_append_noDollar _ p.data _ hp]
  rw [subPH_placeholder _ s.data (fun c hc => wordChar_ne_rbrace (hall c hc)) hne]
  rw [strMk_data]
  have hE : expandExpr (buildEnv env) w =
      some (pyOrEmpty (strOfOpt (alistGet (buildEnv env) (lowerStr w)))) := by
    unfold expandExpr
    rw [hn]
  rw [hE]
  have hmk : ∀ u : List Char, (String.mk u).data = u := fun _ => rfl
  cases h : subPH (expandExpr (buildEnv env)) s.data with
  | none => simp [h]
  | some t =>
    simp only [h, Option.map_some]
    apply congrArg some
    simp [str_append_data, hmk, List.append_assoc]

/-- Claim C5: a placeholder whose expression reads a variable absent from the
environment (keys and name compared lower-cased) expands to the literal text
`None`, not to the empty string. -/
theorem c5_missing_variable_None (env : List (String × String)) (p w s : String)
    (hp : dollar ∉ p.data) (hw : (parseNameExpr w).isSome = true)
    (hmiss : alistGet (buildEnv env) (lowerStr w) = none) :
    expand_template env (p ++ placeholderOf w ++ s) =
      (expand_template env s).map (fun r => p ++ ("None") ++ r) := by
  rw [expand_template_ident env p w s hp hw, hmiss]
  have hN : pyOrEmpty (strOfOpt none) = ("None") := by decide
  simp only [hN]

/-- Witness for C5: `$\x7bmissing\x7d` under the empty environment expands to
`None`. -/
theorem c5_missing_variable_None_witness :
    dollar ∉ ("" : String).data ∧
    (parseNameExpr ("missing")).isSome = true ∧
    alistGet (buildEnv []) (lowerStr ("missing")) = none ∧
    expand_template [] (("" : String) ++ placeholderOf ("missing") ++ ("" : String)) =
      (expand_template [] ("" : String)).map (fun r => ("" : String) ++ ("None") ++ r) :=
  ⟨by decide, by decide, by decide,
   c5_missing_variable_None [] _ _ _ (by decide) (by decide) (by decide)⟩

/-- Claim C9: with an environment binding the key `Name`, the placeholder
variable may be written in any letter case (`name`, `NAME`, `Name`, ...): two
spellings with the same lower-casing expand identically, in any placeholder
position of any template. -/
theorem c9_case_insensitive_resolution (v p s w₁ w₂ : String)
    (hp : dollar ∉ p.data)
    (h₁ : (parseNameExpr w₁).isSome = true) (h₂ : (parseNameExpr w₂).isSome = true)
    (hlow : lowerStr w₁ = lowerStr w₂) :
    expand_template [(("Name"), v)] (p ++ placeholderOf w₁ ++ s) =
      expand_template [(("Name"), v)] (p ++ placeholderOf w₂ ++ s) := by
  rw [expand_template_ident _ p w₁ s hp h₁, expand_template_ident _ p w₂ s hp h₂,
    hlow]

/-- Witness for C9: `Hello $\x7bname\x7d!` and `Hello $\x7bNAME\x7d!` with
`Name ↦ World`. -/
theorem c9_case_insensitive_resolution_witness :
    dollar ∉ ("Hello " : String).data ∧
    (parseNameExpr ("name")).isSome = true ∧
    (parseNameExpr ("NAME")).isSome = true ∧
    lowerStr ("name") = lowerStr ("NAME") ∧
    expand_template [(("Name"), ("World"))] (("Hello ") ++ placeholderOf ("name") ++ ("!")) =
      expand_template [(("Name"), ("World"))] (("Hello ") ++ placeholderOf ("NAME") ++ ("!")) :=
  ⟨by decide, by decide, by decide, by decide,
   c9_case_insensitive_resolution ("World") ("Hello ") ("!") ("name") ("NAME")
     (by decide) (by decide) (by decide) (by decide)⟩

/-! ### Association list lemmas -/

/-- Membership in an inserted dict. -/
theorem alistInsert_mem {β : Type} {d : List (String × β)} {k : String} {v : β}
    {q : String × β} (h : q ∈ alistInsert d k v) : q = (k, v) ∨ q ∈ d := by
  unfold alistInsert at h
  by_cases hp : ((d.find? (fun p => p.1 == k)).isSome) = true
  · rw [if_pos hp] at h
    obtain ⟨p, hpd, hpq⟩ := List.mem_map.mp h
    by_cases hk : (p.1 == k) = true
    · rw [if_pos hk] at hpq
      exact Or.inl hpq.symm
    · rw [if_neg hk] at hpq
      exact Or.inr (hpq ▸ hpd)
  · rw [if_neg hp] at h
    rcases List.mem_append.mp h with h2 | h2
    · exact Or.inr h2
    · simp at h2
      exact Or.inl h2

/-- The in-place replacement used by `alistInsert` preserves keys. -/
theorem replace_fst_preserving {β : Type} (k : String) (v : β) :
    ∀ p : String × β, ((fun p => if p.1 == k then (k, v) else p) p).1 = p.1 := by
  intro p
  by_cases h : (p.1 == k) = true
  · have he : p.1 = k := by simpa using h
    simp [h, he]
  · simp [h]

/-- `find?` with a key predicate commutes with a key-preserving map. -/
theorem find_map_fst_preserving {β γ : Type} (f : String × β → String × γ)
    (hf : ∀ p, (f p).1 = p.1) (d : List (String × β)) (k : String) :
    (d.map f).find? (fun p => p.1 == k) =
      (d.find? (fun p => p.1 == k)).map f := by
  induction d with
  | nil => rfl
  | cons a t ih =>
    rw [List.map_cons]
    simp only [List.find?]
    have hfa : ((f a).1 == k) = (a.1 == k) := by rw [hf]
    rw [hfa]
    cases hk : (a.1 == k) with
    | true => rfl
    | false => exact ih

/-- Lookup after insert at the same key. -/
theorem alistGet_insert {β : Type} (d : List (String × β)) (k : String) (v : β) :
    alistGet (alistInsert d k v) k = some v := by
  unfold alistGet alistInsert
  by_cases hp : ((d.find? (fun p => p.1 == k)).isSome) = true
  · rw [if_pos hp]
    rw [find_map_fst_preserving (fun p => if p.1 == k then (k, v) else p)
      (replace_fst_preserving k v) d k]
    obtain ⟨p, hfind⟩ := Option.isSome_iff_exists.mp hp
    rw [hfind]
    have hpe : p.1 = k := by simpa using List.find?_some hfind
    simp [hpe]
  · rw [if_neg hp]
    have hnone : d.find? (fun p => p.1 == k) = none :=
      Option.not_isSome_iff_eq_none.mp hp
    rw [List.find?_append, hnone]
    simp [List.find?]

/-- Lookup after insert at a different key. -/
theorem alistGet_insert_ne {β : Type} (d : List (String × β)) (k : String) (v : β)
    (k' : String) (h : k' ≠ k) :
    alistGet (alistInsert d k v) k' = alistGet d k' := by
  unfold alistGet alistInsert
  by_cases hp : ((d.find? (fun p => p.1 == k)).isSome) = true
  · rw [if_pos hp]
    rw [find_map_fst_preserving (fun p => if p.1 == k then (k, v) else p)
      (replace_fst_preserving k v) d k']
    cases hd : d.find? (fun p => p.1 == k') with
    | none => rfl
    | some p =>
      have hpe : p.1 = k' := by simpa using List.find?_some hd
      have hne : ¬ (p.1 = k) := by
        rw [hpe]
        exact h
      simp [hne]
  · rw [if_neg hp, List.find?_append]
    cases hd : d.find? (fun p => p.1 == k') with
    | some p => simp
    | none =>
      have hkv : (((k, v) : String × β).1 == k') = false := by
        simp
        exact fun hcon => h hcon.symm
      simp [List.find?, hkv]

/-- A successful lookup is a member. -/
theorem alistGet_mem {β : Type} {d : List (String × β)} {k : String} {v : β}
    (h : alistGet d k = some v) : (k, v) ∈ d := by
  unfold alistGet at h
  cases hf : d.find? (fun p => p.1 == k) with
  | none => rw [hf] at h; exact absurd h (by simp)
  | some p =>
    rw [hf] at h
    simp at h
    have hpe : p.1 = k := by simpa using List.find?_some hf
    have hmem := List.mem_of_find?_eq_some hf
    have hpkv : p = (k, v) := by
      cases p
      simp only [Prod.mk.injEq]
      exact ⟨hpe, h⟩
    exact hpkv ▸ hmem

/-- Failed lookup means the key is absent. -/
theorem alistGet_none_iff {β : Type} (d : List (String × β)) (k : String) :
    alistGet d k = none ↔ k ∉ d.map Prod.fst := by
  unfold alistGet
  constructor
  · intro h hmem
    obtain ⟨p, hpd, hpk⟩ := List.mem_map.mp hmem
    cases hf : d.find? (fun p => p.1 == k) with
    | some q => rw [hf] at h; exact absurd h (by simp)
    | none =>
      have := List.find?_eq_none.mp hf p hpd
      exact this (by simpa using hpk)
  · intro hmem
    cases hf : d.find? (fun p => p.1 == k) with
    | none => rfl
    | some q =>
      exfalso
      apply hmem
      have hqe : q.1 = k := by simpa using List.find?_some hf
      exact List.mem_map.mpr ⟨q, List.mem_of_find?_eq_some hf, hqe⟩

/-- Insert at a present key leaves the key sequence unchanged. -/
theorem alistInsert_keys_present {β : Type} (d : List (String × β)) (k : String)
    (v : β) (h : (alistGet d k).isSome = true) :
    (alistInsert d k v).map Prod.fst = d.map Prod.fst := by
  unfold alistInsert
  have hf : (d.find? (fun p => p.1 == k)).isSome = true := by
    unfold alistGet at h
    simpa using h
  rw [if_pos hf, List.map_map]
  apply List.map_congr_left
  intro p _
  exact replace_fst_preserving k v p

/-- Insert at an absent key appends it to the key sequence. -/
theorem alistInsert_keys_absent {β : Type} (d : List (String × β)) (k : String)
    (v : β) (h : alistGet d k = none) :
    (alistInsert d k v).map Prod.fst = d.map Prod.fst ++ [k] := by
  unfold alistInsert
  have hf : ¬ (d.find? (fun p => p.1 == k)).isSome = true := by
    unfold alistGet at h
    cases hf2 : d.find? (fun p => p.1 == k) with
    | none => simp
    | some q => rw [hf2] at h; exact absurd h (by simp)
  rw [if_neg hf]
  simp

/-- Insert preserves key distinctness. -/
theorem alistInsert_nodup_keys {β : Type} (d : List (String × β)) (k : String)
    (v : β) (h : (d.map Prod.fst).Nodup) :
    ((alistInsert d k v).map Prod.fst).Nodup := by
  cases hg : alistGet d k with
  | some w =>
    rw [alistInsert_keys_present d k v (by simp [hg])]
    exact h
  | none =>
    rw [alistInsert_keys_absent d k v hg]
    have hk : k ∉ d.map Prod.fst := (alistGet_none_iff d k).mp hg
    simp [List.nodup_append, h, hk]

/-- Lookup-presence after insert. -/
theorem alistGet_isSome_insert {β : Type} (d : List (String × β)) (k : String)
    (v : β) (k' : String) :
    (alistGet (alistInsert d k v) k').isSome = true ↔
      k' = k ∨ (alistGet d k').isSome = true := by
  by_cases he : k' = k
  · subst he
    rw [alistGet_insert]
    simp
  · rw [alistGet_insert_ne d k v k' he]
    simp [he]

/-- Presence in the registry initialisation fold. -/
theorem foldInsert_get_isSome (gs : List String) :
    ∀ (d : List (String × List (String × BuildConfig))) (g : String),
      (alistGet (gs.foldl (fun d g => alistInsert d g []) d) g).isSome = true ↔
        g ∈ gs ∨ (alistGet d g).isSome = true := by
  induction gs with
  | nil => intro d g; rw [List.foldl_nil]; simp
  | cons a t ih =>
    intro d g
    rw [List.foldl_cons, ih (alistInsert d a []) g, alistGet_isSome_insert]
    constructor
    · rintro (h | h | h)
      · exact Or.inl (by simp [h])
      · exact Or.inl (by simp [h])
      · exact Or.inr h
    · rintro (h | h)
      · rcases List.mem_cons.mp h with h2 | h2
        · exact Or.inr (Or.inl h2)
        · exact Or.inl h2
      · exact Or.inr (Or.inr h)

/-- Every inner dict produced by the registry initialisation fold is empty. -/
theorem foldInsert_get_empty (gs : List String) :
    ∀ (d : List (String × List (String × BuildConfig))),
      (∀ g2 i2, alistGet d g2 = some i2 → i2 = []) →
      ∀ g inner, alistGet (gs.foldl (fun d g => alistInsert d g []) d) g = some inner →
        inner = [] := by
  induction gs with
  | nil => intro d hd g inner h; exact hd g inner h
  | cons a t ih =>
    intro d hd
    rw [List.foldl_cons]
    apply ih
    intro g2 i2 h2
    by_cases he : g2 = a
    · subst he
      rw [alistGet_insert] at h2
      exact (Option.some.inj h2).symm
    · rw [alistGet_insert_ne d a [] g2 he] at h2
      exact hd g2 i2 h2

/-- The registry initialisation fold keeps keys distinct. -/
theorem foldInsert_nodup (gs : List String) :
    ∀ (d : List (String × List (String × BuildConfig))),
      (d.map Prod.fst).Nodup →
      ((gs.foldl (fun d g => alistInsert d g []) d).map Prod.fst).Nodup := by
  induction gs with
  | nil => intro d hd; exact hd
  | cons a t ih =>
    intro d hd
    rw [List.foldl_cons]
    exact ih (alistInsert d a []) (alistInsert_nodup_keys d a [] hd)

/-- With distinct keys, membership determines the lookup. -/
theorem alistGet_of_mem_nodup {β : Type} {d : List (String × β)}
    (hn : (d.map Prod.fst).Nodup) {k : String} {v : β} (hm : (k, v) ∈ d) :
    alistGet d k = some v := by
  induction d with
  | nil => exact absurd hm (by simp)
  | cons a t ih =>
    rw [List.map_cons, List.nodup_cons] at hn
    rcases List.mem_cons.mp hm with he | hmt
    · rw [← he]
      unfold alistGet
      simp [List.find?]
    · have hkt : k ∈ t.map Prod.fst := List.mem_map.mpr ⟨(k, v), hmt, rfl⟩
      have hak : (a.1 == k) = false := by
        simp only [beq_eq_false_iff_ne]
        intro he2
        exact hn.1 (he2 ▸ hkt)
      unfold alistGet
      simp only [List.find?, hak]
      exact ih hn.2 hmt

/-- The pair predicate `(generator, subconfig) = (g, sc)`. -/
def pairB (g sc : String) (c : BuildConfig) : Bool :=
  c.gen == g && c.subcfg == sc

/-- `pairB` at the matching pair. -/
theorem pairB_self (g sc : String) {c : BuildConfig} (h1 : c.gen = g)
    (h2 : c.subcfg = sc) : pairB g sc c = true := by
  simp [pairB, h1, h2]

/-- `pairB` at a non-matching pair. -/
theorem pairB_eq_false {g sc : String} {c : BuildConfig}
    (h : ¬(g = c.gen ∧ sc = c.subcfg)) : pairB g sc c = false := by
  unfold pairB
  by_cases h1 : c.gen = g
  · by_cases h2 : c.subcfg = sc
    · exact absurd ⟨h1.symm, h2.symm⟩ h
    · simp [h2]
  · simp [h1]

/-- Erasing the unique filtered element empties the filter. -/
theorem filter_erase_of_filter_singleton {l : List BuildConfig}
    {old : BuildConfig} {q : BuildConfig → Bool} (h : l.filter q = [old]) :
    (l.erase old).filter q = [] := by
  have hmem : old ∈ l := List.mem_of_mem_filter (l := l) (by rw [h]; simp)
  obtain ⟨l₁, l₂, hnm, hl, he⟩ := List.exists_erase_eq hmem
  have hqold : q old = true := by
    have : old ∈ l.filter q := by rw [h]; simp
    exact List.of_mem_filter this
  rw [hl, List.filter_append, List.filter_cons_of_pos hqold] at h
  have hlen := congrArg List.length h
  simp at hlen
  have h1 : l₁.filter q = [] := List.eq_nil_of_length_eq_zero (by omega)
  have h2 : l₂.filter q = [] := List.eq_nil_of_length_eq_zero (by omega)
  rw [he, List.filter_append, h1, h2]
  rfl

/-- Erasing an element the filter rejects leaves the filter unchanged. -/
theorem filter_erase_of_not {l : List BuildConfig} {old : BuildConfig}
    {q : BuildConfig → Bool} (hmem : old ∈ l) (hq : q old = false) :
    (l.erase old).filter q = l.filter q := by
  obtain ⟨l₁, l₂, hnm, hl, he⟩ := List.exists_erase_eq hmem
  rw [he, hl, List.filter_append, List.filter_append,
    List.filter_cons_of_neg (by simp [hq])]

/-- `alistGet2` through `Option.bind`. -/
theorem alistGet2_eq (d : List (String × List (String × BuildConfig)))
    (g sc : String) :
    alistGet2 d g sc = (alistGet d g).bind (fun inner => alistGet inner sc) := by
  unfold alistGet2
  cases alistGet d g <;> rfl

/-- Two-level lookup after the dict update performed for a processed
configuration. -/
theorem alistGet2_insert (d : List (String × List (String × BuildConfig)))
    (gk sck : String) (inner : List (String × BuildConfig)) (cv : BuildConfig)
    (hg : alistGet d gk = some inner) (g sc : String) :
    alistGet2 (alistInsert d gk (alistInsert inner sck cv)) g sc =
      if g = gk ∧ sc = sck then some cv else alistGet2 d g sc := by
  rw [alistGet2_eq, alistGet2_eq]
  by_cases hgg : g = gk
  · subst hgg
    rw [alistGet_insert, hg]
    simp only [Option.bind]
    by_cases hss : sc = sck
    · subst hss
      rw [alistGet_insert]
      simp
    · rw [alistGet_insert_ne inner sck cv sc hss]
      simp [hss]
  · rw [alistGet_insert_ne d gk _ g hgg]
    simp [hgg]

/-- The typing invariant of the configuration table: distinct registry keys,
all keys known, each stored configuration sits at its own (generator,
subconfig) position, and the valid list holds exactly the dict's entries, one
per claimed pair. -/
structure TblInv (known : List String) (t : Table) : Prop where
  keysNodup : (t.g2c.map Prod.fst).Nodup
  keysKnown : ∀ g, (alistGet t.g2c g).isSome = true → g ∈ known
  pairFields : ∀ p ∈ t.g2c, ∀ q ∈ p.2, q.2.gen = p.1 ∧ q.2.subcfg = q.1
  uniq : ∀ g sc, t.configurations.filter (pairB g sc) = (alistGet2 t.g2c g sc).toList

/-- The invariant holds at the initial table. -/
theorem tblInv_init (known : List String) :
    TblInv known ⟨[], [], initG2c known, []⟩ := by
  have hempty : ∀ g inner, alistGet (initG2c known) g = some inner → inner = [] :=
    foldInsert_get_empty known []
      (by intro g2 i2 h2; exact absurd h2 (by simp [alistGet]))
  refine ⟨?_, ?_, ?_, ?_⟩
  · exact foldInsert_nodup known [] (by simp)
  · intro g h
    rcases (foldInsert_get_isSome known [] g).mp h with h2 | h2
    · exact h2
    · exact absurd h2 (by simp [alistGet])
  · intro p hp q hq
    have hget : alistGet (initG2c known) p.1 = some p.2 :=
      alistGet_of_mem_nodup (foldInsert_nodup known [] (by simp))
        (by cases p; exact hp)
    have hp2 : p.2 = [] := hempty p.1 p.2 hget
    rw [hp2] at hq
    exact absurd hq (by simp)
  · intro g sc
    show ([] : List BuildConfig).filter (pairB g sc) =
      (alistGet2 (initG2c known) g sc).toList
    rw [alistGet2_eq]
    cases hg : alistGet (initG2c known) g with
    | none => rfl
    | some inner =>
      rw [hempty g inner hg]
      rfl

/-- `applyConfig` on an unknown generator. -/
theorem applyConfig_unknown {t : Table} {i : Nat} {c : BuildConfig}
    (hg : alistGet t.g2c c.gen = none) :
    applyConfig t i c =
      { t with warnings := t.warnings ++ [warnUnknown c.gen i],
               invalid := t.invalid ++ [c] } := by
  unfold applyConfig
  rw [hg]

/-- `applyConfig` claiming a fresh (generator, subconfig) pair. -/
theorem applyConfig_fresh {t : Table} {i : Nat} {c : BuildConfig}
    {inner : List (String × BuildConfig)}
    (hg : alistGet t.g2c c.gen = some inner)
    (hs : alistGet inner c.subcfg = none) :
    applyConfig t i c =
      { t with configurations := t.configurations ++ [c],
               g2c := alistInsert t.g2c c.gen (alistInsert inner c.subcfg c) } := by
  unfold applyConfig
  rw [hg]
  simp only [hs]

/-- `applyConfig` overriding an already-claimed pair. -/
theorem applyConfig_override {t : Table} {i : Nat} {c : BuildConfig}
    {inner : List (String × BuildConfig)} {old : BuildConfig}
    (hg : alistGet t.g2c c.gen = some inner)
    (hs : alistGet inner c.subcfg = some old) :
    applyConfig t i c =
      { t with warnings := t.warnings ++ [warnOverride c.gen i],
               configurations := (t.configurations.erase old) ++ [c],
               invalid := t.invalid ++ [old],
               g2c := alistInsert t.g2c c.gen (alistInsert inner c.subcfg c) } := by
  unfold applyConfig
  rw [hg]
  simp only [hs]

/-- Processing one configuration preserves the table invariant. -/
theorem tblInv_applyConfig {known : List String} {t : Table} (h : TblInv known t)
    (i : Nat) (c : BuildConfig) : TblInv known (applyConfig t i c) := by
  cases hg : alistGet t.g2c c.gen with
  | none =>
    rw [applyConfig_unknown hg]
    exact ⟨h.keysNodup, h.keysKnown, h.pairFields, h.uniq⟩
  | some inner =>
    have hkeysN : ((alistInsert t.g2c c.gen
        (alistInsert inner c.subcfg c)).map Prod.fst).Nodup := by
      rw [alistInsert_keys_present t.g2c c.gen _ (by simp [hg])]
      exact h.keysNodup
    have hkeysK : ∀ g, (alistGet (alistInsert t.g2c c.gen
        (alistInsert inner c.subcfg c)) g).isSome = true → g ∈ known := by
      intro g hgg
      rcases (alistGet_isSome_insert t.g2c c.gen _ g).mp hgg with he | hold
      · subst he
        exact h.keysKnown c.gen (by simp [hg])
      · exact h.keysKnown g hold
    have hfields : ∀ p ∈ alistInsert t.g2c c.gen (alistInsert inner c.subcfg c),
        ∀ q ∈ p.2, q.2.gen = p.1 ∧ q.2.subcfg = q.1 := by
      intro p hp q hq
      rcases alistInsert_mem hp with hpe | hpd
      · subst hpe
        rcases alistInsert_mem hq with hqe | hqd
        · subst hqe
          exact ⟨rfl, rfl⟩
        · exact h.pairFields (c.gen, inner) (alistGet_mem hg) q hqd
      · exact h.pairFields p hpd q hq
    cases hs : alistGet inner c.subcfg with
    | none =>
      rw [applyConfig_fresh hg hs]
      refine ⟨hkeysN, hkeysK, hfields, ?_⟩
      intro g sc
      show (t.configurations ++ [c]).filter (pairB g sc) =
        (alistGet2 (alistInsert t.g2c c.gen (alistInsert inner c.subcfg c)) g sc).toList
      rw [List.filter_append, alistGet2_insert t.g2c c.gen c.subcfg inner c hg g sc]
      by_cases hpair : g = c.gen ∧ sc = c.subcfg
      · obtain ⟨h1, h2⟩ := hpair
        subst h1
        subst h2
        rw [if_pos ⟨rfl, rfl⟩, h.uniq c.gen c.subcfg, alistGet2_eq, hg]
        simp only [Option.bind, hs]
        simp [List.filter, pairB_self c.gen c.subcfg rfl rfl]
      · rw [if_neg hpair, h.uniq g sc]
        simp [List.filter, pairB_eq_false hpair]
    | some old =>
      have hold_mem_inner : (c.subcfg, old) ∈ inner := alistGet_mem hs
      have hginner_mem : (c.gen, inner) ∈ t.g2c := alistGet_mem hg
      have hof := h.pairFields _ hginner_mem _ hold_mem_inner
      have hfo : t.configurations.filter (pairB c.gen c.subcfg) = [old] := by
        rw [h.uniq, alistGet2_eq, hg]
        simp only [Option.bind, hs]
        rfl
      have hold_mem : old ∈ t.configurations := by
        apply List.mem_of_mem_filter (p := pairB c.gen c.subcfg)
        rw [hfo]
        simp
      rw [applyConfig_override hg hs]
      refine ⟨hkeysN, hkeysK, hfields, ?_⟩
      intro g sc
      show ((t.configurations.erase old) ++ [c]).filter (pairB g sc) =
        (alistGet2 (alistInsert t.g2c c.gen (alistInsert inner c.subcfg c)) g sc).toList
      rw [List.filter_append, alistGet2_insert t.g2c c.gen c.subcfg inner c hg g sc]
      by_cases hpair : g = c.gen ∧ sc = c.subcfg
      · obtain ⟨h1, h2⟩ := hpair
        subst h1
        subst h2
        rw [if_pos ⟨rfl, rfl⟩, filter_erase_of_filter_singleton hfo]
        simp [List.filter, pairB_self c.gen c.subcfg rfl rfl]
      · have hqold : pairB g sc old = false := by
          apply pairB_eq_false
          rw [hof.1, hof.2]
          exact hpair
        rw [if_neg hpair, filter_erase_of_not hold_mem hqold, h.uniq g sc]
        simp [List.filter, pairB_eq_false hpair]

/-- Lookup at the head key. -/
theorem alistGet_cons_self {β : Type} (a : String × β) (t : List (String × β)) :
    alistGet (a :: t) a.1 = some a.2 := by
  unfold alistGet
  simp [List.find?]

/-- Lookup skips a mismatching head. -/
theorem alistGet_cons_ne {β : Type} (a : String × β) (t : List (String × β))
    (g : String) (h : a.1 ≠ g) : alistGet (a :: t) g = alistGet t g := by
  unfold alistGet
  have hb : (a.1 == g) = false := by simpa using h
  simp [List.find?, hb]

/-- The per-entry update of the default-synthesis loop preserves keys. -/
theorem defaults_fst_preserving :
    ∀ p : String × List (String × BuildConfig),
      (if p.2.isEmpty then (p.1, [(("" : String), mkDefault p.1)]) else p).1 = p.1 := by
  intro p
  by_cases he : p.2.isEmpty <;> simp [he]

/-- Lookup through the default-synthesis map. -/
theorem defaults_get (d : List (String × List (String × BuildConfig))) (g : String) :
    alistGet (d.map
        (fun p => if p.2.isEmpty then (p.1, [(("" : String), mkDefault p.1)]) else p)) g =
      (alistGet d g).map
        (fun inner => if inner.isEmpty then [(("" : String), mkDefault g)] else inner) := by
  unfold alistGet
  rw [find_map_fst_preserving _ defaults_fst_preserving d g]
  cases hd : d.find? (fun p => p.1 == g) with
  | none => rfl
  | some p =>
    have hpe : p.1 = g := by simpa using List.find?_some hd
    by_cases he : p.2 = [] <;> simp [he, hpe]

/-- A default for an unlisted generator never survives the pair filter. -/
theorem defList_filter_not_mem (d : List (String × List (String × BuildConfig)))
    (g sc : String) (hg : g ∉ d.map Prod.fst) :
    (d.filterMap
        (fun p => if p.2.isEmpty then some (mkDefault p.1) else none)).filter
      (pairB g sc) = [] := by
  induction d with
  | nil => rfl
  | cons a t ih =>
    have hga : a.1 ≠ g := by
      intro he
      exact hg (by simp [← he])
    have hgt : g ∉ t.map Prod.fst := by
      intro hmem
      exact hg (by simp [hmem])
    rw [List.filterMap_cons]
    by_cases he : a.2.isEmpty
    · simp only [he, if_true]
      rw [List.filter_cons_of_neg, ih hgt]
      rw [pairB_eq_false]
      · simp
      · intro hcon
        exact hga (by simp [mkDefault] at hcon; exact hcon.1.symm)
    · simp only [he, Bool.false_eq_true, if_false]
      exact ih hgt

/-- The pair filter on the synthesized defaults. -/
theorem defList_filter (d : List (String × List (String × BuildConfig)))
    (hn : (d.map Prod.fst).Nodup) (g sc : String) :
    (d.filterMap
        (fun p => if p.2.isEmpty then some (mkDefault p.1) else none)).filter
      (pairB g sc) =
      (match alistGet d g with
       | some inner => if inner.isEmpty ∧ sc = ("") then [mkDefault g] else []
       | none => []) := by
  induction d with
  | nil => simp [alistGet]
  | cons a t ih =>
    rw [List.map_cons, List.nodup_cons] at hn
    rw [List.filterMap_cons]
    by_cases hag : a.1 = g
    · rw [← hag, alistGet_cons_self]
      by_cases he : a.2.isEmpty
      · by_cases hsc : sc = ("")
        · subst hsc
          simp only [he, if_true, true_and]
          rw [List.filter_cons_of_pos (pairB_self a.1 ("") rfl rfl)]
          rw [defList_filter_not_mem t a.1 ("") hn.1]
        · simp only [he, if_true, true_and, hsc, if_false]
          rw [List.filter_cons_of_neg
            (by rw [pairB_eq_false (fun hcon => hsc hcon.2)]; simp)]
          exact defList_filter_not_mem t a.1 sc hn.1
      · simp only [he, Bool.false_eq_true, if_false, false_and]
        exact defList_filter_not_mem t a.1 sc hn.1
    · rw [alistGet_cons_ne a t g (fun he => hag he)]
      by_cases he : a.2.isEmpty
      · simp only [he, if_true]
        rw [List.filter_cons_of_neg
          (by rw [pairB_eq_false (fun hcon => hag hcon.1.symm)]; simp)]
        exact ih hn.2
      · simp only [he, Bool.false_eq_true, if_false]
        exact ih hn.2

/-- The collections after default synthesis. -/
theorem applyDefaults_g2c (t : Table) :
    (applyDefaults t).g2c = t.g2c.map
      (fun p => if p.2.isEmpty then (p.1, [(("" : String), mkDefault p.1)]) else p) := rfl

/-- The valid configurations after default synthesis. -/
theorem applyDefaults_configurations (t : Table) :
    (applyDefaults t).configurations = t.configurations ++
      t.g2c.filterMap (fun p => if p.2.isEmpty then some (mkDefault p.1) else none) := rfl

/-- Default synthesis does not touch the invalid list. -/
theorem applyDefaults_invalid (t : Table) :
    (applyDefaults t).invalid = t.invalid := rfl

/-- Default synthesis does not emit warnings. -/
theorem applyDefaults_warnings (t : Table) :
    (applyDefaults t).warnings = t.warnings := rfl

/-- Default synthesis preserves the table invariant. -/
theorem tblInv_applyDefaults {known : List String} {t : Table} (h : TblInv known t) :
    TblInv known (applyDefaults t) := by
  refine ⟨?_, ?_, ?_, ?_⟩
  · rw [applyDefaults_g2c, List.map_map]
    have hco : (Prod.fst ∘ fun p : String × List (String × BuildConfig) =>
        if p.2.isEmpty then (p.1, [(("" : String), mkDefault p.1)]) else p) = Prod.fst := by
      funext p
      exact defaults_fst_preserving p
    rw [hco]
    exact h.keysNodup
  · intro g hg
    rw [applyDefaults_g2c, defaults_get] at hg
    apply h.keysKnown g
    cases hd : alistGet t.g2c g with
    | none => rw [hd] at hg; exact absurd hg (by simp)
    | some inner => simp [hd]
  · intro p hp q hq
    rw [applyDefaults_g2c] at hp
    obtain ⟨p0, hp0, hfp⟩ := List.mem_map.mp hp
    by_cases he : p0.2.isEmpty
    · rw [if_pos he] at hfp
      subst hfp
      simp only [List.mem_singleton] at hq
      subst hq
      exact ⟨rfl, rfl⟩
    · rw [if_neg he] at hfp
      subst hfp
      exact h.pairFields p0 hp0 q hq
  · intro g sc
    rw [applyDefaults_configurations, applyDefaults_g2c]
    rw [List.filter_append, h.uniq g sc, defList_filter t.g2c h.keysNodup g sc]
    rw [alistGet2_eq, alistGet2_eq, defaults_get]
    cases hd : alistGet t.g2c g with
    | none => simp
    | some inner =>
      by_cases he : inner.isEmpty
      · have hinner : inner = [] := by simpa using he
        subst hinner
        by_cases hsc : sc = ("")
        · subst hsc
          simp [Option.bind, alistGet, List.find?]
        · have hne : ¬ (("" : String) = sc) := fun hcon => hsc hcon.symm
          have hbe : (("" : String) == sc) = false := by simpa using hne
          simp [Option.bind, alistGet, List.find?, hsc, hne, hbe]
      · have hnn : inner ≠ [] := by simpa using he
        simp [Option.bind, he, hnn]

/-- A string whose first character is not whitespace does not strip to empty. -/
theorem pyStripL_ne_nil_of_head {c : Char} (t : List Char)
    (hc : pyIsSpace c = false) : pyStripL (c :: t) ≠ [] := by
  unfold pyStripL
  rw [List.dropWhile_cons_of_neg (by simp [hc])]
  intro hcon
  rw [List.reverse_eq_nil_iff, List.dropWhile_eq_nil_iff] at hcon
  have h2 := hcon c (by simp)
  rw [hc] at h2
  exact absurd h2 (by simp)

/-- A line that parses as a configuration is not blank. -/
theorem from_makefile_nonblank {line : String} {c : BuildConfig}
    (hc : from_makefile line = some c) : pyStripL line.data ≠ [] := by
  unfold from_makefile at hc
  by_cases hsw : startsWithL line.data markerL = true
  · have hpre : markerL <+: line.data := by
      have := hsw
      unfold startsWithL at this
      exact List.isPrefixOf_iff_prefix.mp this
    obtain ⟨u, hu⟩ := hpre
    intro hcon
    rw [← hu] at hcon
    have hCh : markerL ++ u = 'C' :: (("FG__").data ++ u) := rfl
    rw [hCh] at hcon
    exact pyStripL_ne_nil_of_head _ (by decide) hcon
  · rw [if_neg hsw] at hc
    exact absurd hc (by simp)

/-- The table after a non-configuration line is unchanged. -/
theorem stepLine_tbl_nonconfig (N : Nat) (s : ParseState) (i : Nat) (line : String)
    (h : from_makefile line = none) : (stepLine N s (i, line)).tbl = s.tbl := by
  unfold stepLine
  simp only [h]
  split
  · split <;> rfl
  · split <;> rfl

/-- The table after a configuration line: processed while the block is open,
ignored after it closed. -/
theorem stepLine_tbl_config (N : Nat) (s : ParseState) (i : Nat) (line : String)
    (c : BuildConfig) (hc : from_makefile line = some c) :
    (stepLine N s (i, line)).tbl =
      if (s.cfgEnd == N) = true then applyConfig s.tbl i c else s.tbl := by
  unfold stepLine
  have hnb : pyStripL line.data ≠ [] := from_makefile_nonblank hc
  rw [if_neg (by simpa using hnb)]
  simp only [hc]
  by_cases hce : (s.cfgEnd == N) = true
  · rw [if_pos hce, if_pos hce]
  · rw [if_neg hce, if_neg hce]

/-- Every scanning step preserves the table invariant. -/
theorem tblInv_stepLine {known : List String} {N : Nat} {s : ParseState}
    (h : TblInv known s.tbl) (p : Nat × String) :
    TblInv known (stepLine N s p).tbl := by
  obtain ⟨i, line⟩ := p
  cases hc : from_makefile line with
  | none =>
    rw [stepLine_tbl_nonconfig N s i line hc]
    exact h
  | some c =>
    rw [stepLine_tbl_config N s i line c hc]
    by_cases hce : (s.cfgEnd == N) = true
    · rw [if_pos hce]
      exact tblInv_applyConfig h i c
    · rw [if_neg hce]
      exact h

/-- The fold over all lines preserves the table invariant. -/
theorem tblInv_fold {known : List String} {N : Nat} :
    ∀ (ps : List (Nat × String)) (s : ParseState), TblInv known s.tbl →
      TblInv known (ps.foldl (stepLine N) s).tbl := by
  intro ps
  induction ps with
  | nil => intro s h; exact h
  | cons p t ih =>
    intro s h
    rw [List.foldl_cons]
    exact ih (stepLine N s p) (tblInv_stepLine h p)

/-- The invariant holds for the finished parse. -/
theorem tblInv_parseMakefile (lines known : List String) :
    TblInv known (parseMakefile lines known).tbl := by
  unfold parseMakefile
  exact tblInv_applyDefaults
    (tblInv_fold lines.enum (initState lines.length known) (tblInv_init known))

/-- Bounded pair filters give pairwise-distinct pairs. -/
theorem pairwise_of_filters (l : List BuildConfig)
    (h : ∀ g sc, (l.filter (pairB g sc)).length ≤ 1) :
    l.Pairwise (fun a b => ¬(a.gen = b.gen ∧ a.subcfg = b.subcfg)) := by
  induction l with
  | nil => exact List.Pairwise.nil
  | cons a t ih =>
    constructor
    · intro b hb hcon
      have h2 := h a.gen a.subcfg
      rw [List.filter_cons_of_pos (pairB_self a.gen a.subcfg rfl rfl)] at h2
      have hbf : b ∈ t.filter (pairB a.gen a.subcfg) :=
        List.mem_filter.mpr ⟨hb, pairB_self a.gen a.subcfg hcon.1.symm hcon.2.symm⟩
      have hpos := List.length_pos_of_mem hbf
      simp only [List.length_cons] at h2
      omega
    · apply ih
      intro g sc
      have h2 := h g sc
      by_cases hpa : pairB g sc a = true
      · rw [List.filter_cons_of_pos hpa] at h2
        simp only [List.length_cons] at h2
        omega
      · rw [List.filter_cons_of_neg (by simp [hpa])] at h2
        exact h2

/-- Claim C7: after construction (including default synthesis), no two entries
of `validConfigs` share the same (generator, subconfig) pair, for every
build-file line sequence and registry. -/
theorem c7_valid_pairs_unique (lines known : List String) :
    ((parseMakefile lines known).tbl.configurations).Pairwise
      (fun a b => ¬(a.gen = b.gen ∧ a.subcfg = b.subcfg)) := by
  have hInv := tblInv_parseMakefile lines known
  apply pairwise_of_filters
  intro g sc
  rw [hInv.uniq g sc]
  cases alistGet2 (parseMakefile lines known).tbl.g2c g sc <;> simp

/-- Claim C8: once the block end has been finalized (`cfg_end` no longer holds
its `num_lines` sentinel), a line that parses as a configuration is ignored
entirely: the valid list, the invalid list, the claim dict and the emitted
warnings (the whole `Table`) are unchanged by the step. -/
theorem c8_config_after_block_ignored (N : Nat) (s : ParseState) (i : Nat)
    (line : String) (c : BuildConfig) (hEnd : s.cfgEnd ≠ N)
    (hc : from_makefile line = some c) :
    (stepLine N s (i, line)).tbl = s.tbl := by
  rw [stepLine_tbl_config N s i line c hc, if_neg (by simpa using hEnd)]

/-- Witness for C8: a concrete mid-scan state with the block closed at line 1
leaves the table untouched on a later configuration line. -/
theorem c8_config_after_block_ignored_witness :
    ((⟨false, 3, 0, 1, 0, ⟨[], [], [(("foo"), [])], []⟩⟩ : ParseState).cfgEnd ≠ 3) ∧
    from_makefile ("CFG__foo = 1\n") =
      some (⟨("foo"), (""), ("1"), some ("CFG__foo = 1\n")⟩ : BuildConfig) ∧
    (stepLine 3 ⟨false, 3, 0, 1, 0, ⟨[], [], [(("foo"), [])], []⟩⟩
        (2, ("CFG__foo = 1\n"))).tbl =
      (⟨false, 3, 0, 1, 0, ⟨[], [], [(("foo"), [])], []⟩⟩ : ParseState).tbl :=
  ⟨by decide, by decide,
   c8_config_after_block_ignored 3 _ 2 ("CFG__foo = 1\n")
     (⟨("foo"), (""), ("1"), some ("CFG__foo = 1\n")⟩ : BuildConfig)
     (by decide) (by decide)⟩

/-! ### The `after_comment` anchor (claim C6) -/

/-- The line begins with the header-comment marker. -/
def isHeaderLine (l : String) : Bool := startsWithL l.data headerMarker

/-- The line is blank, or its stripped text does not begin with `#`. -/
def isCommentEnder (l : String) : Bool :=
  pyStripL l.data == [] || !(startsWithL (pyStripL l.data) hashL)

/-- The `after_comment` anchor as the code computes it, in the spec's terms:
the index of the first line, at or after the first line beginning with
`# Configure generators`, that is blank or whose stripped text does not begin
with `#` (the header line itself never qualifies, since it begins with `#`).
`saw` records whether a header line has been passed, `i` the current index. -/
def afterCommentSpec : Bool → Nat → List String → Option Nat
  | _, _, [] => none
  | saw, i, l :: rest =>
    if (saw || isHeaderLine l) && isCommentEnder l then some i
    else afterCommentSpec (saw || isHeaderLine l) (i + 1) rest

/-- A blank line cannot carry the header marker. -/
theorem blank_not_header {l : String} (h : pyStripL l.data = []) :
    startsWithL l.data headerMarker = false := by
  cases hx : startsWithL l.data headerMarker with
  | false => rfl
  | true =>
    exfalso
    have hpre2 : headerMarker <+: l.data := by
      have := hx
      unfold startsWithL at this
      exact List.isPrefixOf_iff_prefix.mp this
    obtain ⟨u, hu⟩ := hpre2
    rw [← hu] at h
    have hCh : headerMarker ++ u = '#' :: ((" Configure generators").data ++ u) := rfl
    rw [hCh] at h
    exact pyStripL_ne_nil_of_head _ (by decide) h

/-- The `saw`/`after` projection of one scanning step. -/
def acStep (N : Nat) (sa : Bool × Nat) (p : Nat × String) : Bool × Nat :=
  if pyStripL p.2.data == [] then
    (sa.1, if sa.1 && sa.2 == N then p.1 else sa.2)
  else
    (sa.1 || startsWithL p.2.data headerMarker,
     if (sa.1 || startsWithL p.2.data headerMarker) && sa.2 == N &&
         !(startsWithL (pyStripL p.2.data) hashL) then p.1
     else sa.2)

/-- `stepLine` acts on `saw`/`after` exactly as `acStep`. -/
theorem stepLine_proj_ac (N : Nat) (s : ParseState) (p : Nat × String) :
    ((stepLine N s p).saw, (stepLine N s p).after) = acStep N (s.saw, s.after) p := by
  unfold stepLine acStep
  by_cases hb : (pyStripL p.2.data == []) = true
  · rw [if_pos hb, if_pos hb]
    by_cases hsa : (s.saw && s.after == N) = true
    · rw [if_pos hsa, if_pos hsa]
    · rw [if_neg hsa, if_neg hsa]
  · rw [if_neg hb, if_neg hb]
    cases hc : from_makefile p.2 with
    | some c =>
      simp only [hc]
      by_cases hce : (s.cfgEnd == N) = true
      · rw [if_pos hce]
      · rw [if_neg hce]
    | none =>
      simp only [hc]
      by_cases hcc : (decide (s.cfgStart < N) && s.cfgEnd == N) = true
      · rw [if_pos hcc]
      · rw [if_neg hcc]

/-- Folding `stepLine` projects onto folding `acStep`. -/
theorem fold_proj_ac (N : Nat) :
    ∀ (ps : List (Nat × String)) (s : ParseState),
      ((ps.foldl (stepLine N) s).saw, (ps.foldl (stepLine N) s).after) =
        ps.foldl (acStep N) (s.saw, s.after) := by
  intro ps
  induction ps with
  | nil => intro s; rfl
  | cons p t ih =>
    intro s
    rw [List.foldl_cons, List.foldl_cons, ih (stepLine N s p), stepLine_proj_ac]

/-- Once set, `after` never changes. -/
theorem acStep_fold_frozen (N : Nat) :
    ∀ (ps : List (Nat × String)) (saw : Bool) (a : Nat), a ≠ N →
      (ps.foldl (acStep N) (saw, a)).2 = a := by
  intro ps
  induction ps with
  | nil => intro saw a _; rfl
  | cons p t ih =>
    intro saw a ha
    rw [List.foldl_cons]
    have hae : (a == N) = false := by simpa using ha
    have hsnd : (acStep N (saw, a) p).2 = a := by
      unfold acStep
      by_cases hb : (pyStripL p.2.data == []) = true
      · rw [if_pos hb]
        simp [hae]
      · rw [if_neg hb]
        simp [hae]
    have heta : ((acStep N (saw, a) p).1, (acStep N (saw, a) p).2) =
        acStep N (saw, a) p := rfl
    rw [hsnd] at heta
    rw [← heta]
    exact ih _ a ha

/-- One step from the unset state, in terms of the spec predicates. -/
theorem acStep_at_N (N : Nat) (saw : Bool) (i : Nat) (l : String) :
    acStep N (saw, N) (i, l) =
      (if pyStripL l.data == [] then saw else saw || isHeaderLine l,
       if (saw || isHeaderLine l) && isCommentEnder l then i else N) := by
  unfold acStep isCommentEnder isHeaderLine
  by_cases hb : (pyStripL l.data == []) = true
  · rw [if_pos hb, if_pos hb]
    have hh : startsWithL l.data headerMarker = false :=
      blank_not_header (by simpa using hb)
    simp [hh, hb]
  · rw [if_neg hb, if_neg hb]
    have hbf : (pyStripL l.data == []) = false := by
      cases hx : (pyStripL l.data == []) with
      | false => rfl
      | true => exact absurd hx hb
    simp [hbf]

/-- The fold from the unset state computes `afterCommentSpec`. -/
theorem acStep_fold_spec (N : Nat) :
    ∀ (ls : List String) (i : Nat) (saw : Bool),
      (∀ j, j < ls.length → i + j < N) →
      ((List.enumFrom i ls).foldl (acStep N) (saw, N)).2 =
        (afterCommentSpec saw i ls).getD N := by
  intro ls
  induction ls with
  | nil => intro i saw _; rfl
  | cons l rest ih =>
    intro i saw h
    rw [show List.enumFrom i (l :: rest) = (i, l) :: List.enumFrom (i + 1) rest from rfl]
    rw [List.foldl_cons, acStep_at_N]
    unfold afterCommentSpec
    by_cases hfire : ((saw || isHeaderLine l) && isCommentEnder l) = true
    · rw [if_pos hfire, if_pos hfire]
      have hi : i ≠ N := by
        have := h 0 (by simp)
        omega
      rw [acStep_fold_frozen N _ _ i hi]
      rfl
    · rw [if_neg hfire, if_neg hfire]
      have hbound : ∀ j, j < rest.length → (i + 1) + j < N := by
        intro j hj
        have := h (j + 1) (by simpa using Nat.succ_lt_succ hj)
        omega
      by_cases hb : (pyStripL l.data == []) = true
      · have hh : isHeaderLine l = false := blank_not_header (by simpa using hb)
        rw [if_pos hb, hh, Bool.or_false]
        exact ih (i + 1) saw hbound
      · rw [if_neg hb]
        exact ih (i + 1) (saw || isHeaderLine l) hbound

/-- Claim C6 (amended): for every build file, the `afterComment` anchor is the
index of the first line, at or after the first header-comment line beginning
with `# Configure generators`, that is blank **or** whose stripped text does
not begin with `#` (the original claim's "neither blank nor comment" is wrong:
a blank line directly after the header already fixes the anchor); when no such
line exists the anchor keeps the `num_lines` sentinel. -/
theorem c6_after_comment_anchor (lines known : List String) :
    (parseMakefile lines known).after =
      (afterCommentSpec false 0 lines).getD lines.length := by
  unfold parseMakefile
  show ((lines.enum.foldl (stepLine lines.length) (initState lines.length known))).after = _
  have hproj := fold_proj_ac lines.length lines.enum (initState lines.length known)
  have hafter := congrArg Prod.snd hproj
  simp only at hafter
  rw [hafter]
  rw [show lines.enum = List.enumFrom 0 lines from rfl]
  exact acStep_fold_spec lines.length lines 0 false (fun j hj => by omega)

/-- Counterexample to C6 as stated: with lines `# Configure generators`,
a blank line, then `x`, the code anchors `afterComment` at index 1 — the
blank line — whereas the first line after the header that is neither blank
nor a comment is index 2. -/
theorem c6_counterexample :
    (parseMakefile [("# Configure generators\n"), ("\n"), ("x\n")] []).after = 1 ∧
    pyStripL (("\n") : String).data = [] ∧
    pyStripL (("x\n") : String).data ≠ [] ∧
    startsWithL (pyStripL (("x\n") : String).data) hashL = false ∧
    isHeaderLine ("# Configure generators\n") = true := by
  refine ⟨?_, ?_, ?_, ?_, ?_⟩ <;> decide

/-! ### Simulation: the scanning fold processes exactly the block declarations -/

/-- `runDecls` unfolds one declaration at a time. -/
theorem runDecls_cons (t : Table) (i : Nat) (c : BuildConfig)
    (ds : List (Nat × BuildConfig)) :
    runDecls t ((i, c) :: ds) = runDecls (applyConfig t i c) ds := rfl

/-- `scanDecls` skips a blank line. -/
theorem scanDecls_blank (started : Bool) (i : Nat) (line : String)
    (rest : List (Nat × String)) (hb : pyStripL line.data = []) :
    scanDecls started ((i, line) :: rest) = scanDecls started rest := by
  conv_lhs => unfold scanDecls
  rw [if_pos (by simp [hb])]

/-- `scanDecls` collects a configuration line. -/
theorem scanDecls_config (started : Bool) (i : Nat) (line : String)
    (c : BuildConfig) (rest : List (Nat × String))
    (hc : from_makefile line = some c) :
    scanDecls started ((i, line) :: rest) = (i, c) :: scanDecls true rest := by
  conv_lhs => unfold scanDecls
  rw [if_neg (by simpa using from_makefile_nonblank hc)]
  simp only [hc]

/-- `scanDecls` at a non-blank non-configuration line: the block closes if it
was open, otherwise scanning continues. -/
theorem scanDecls_nonconfig (started : Bool) (i : Nat) (line : String)
    (rest : List (Nat × String)) (hb : pyStripL line.data ≠ [])
    (hc : from_makefile line = none) :
    scanDecls started ((i, line) :: rest) =
      if started then [] else scanDecls started rest := by
  conv_lhs => unfold scanDecls
  rw [if_neg (by simpa using hb)]
  simp only [hc]

/-- `stepLine` on a blank line. -/
theorem stepLine_blank_eq (N : Nat) (s : ParseState) (i : Nat) (line : String)
    (hb : pyStripL line.data = []) :
    stepLine N s (i, line) =
      if (s.saw && s.after == N) = true then { s with after := i } else s := by
  unfold stepLine
  rw [if_pos (by simp [hb])]

/-- `stepLine` on a configuration line while the block is open. -/
theorem stepLine_config_eq (N : Nat) (s : ParseState) (i : Nat) (line : String)
    (c : BuildConfig) (hc : from_makefile line = some c) (hEnd : s.cfgEnd = N) :
    stepLine N s (i, line) =
      { s with
        saw := s.saw || startsWithL line.data headerMarker,
        after := if ((s.saw || startsWithL line.data headerMarker) &&
            s.after == N && !(startsWithL (pyStripL line.data) hashL)) = true
          then i else s.after,
        cfgStart := if (s.cfgStart == N) = true then i else s.cfgStart,
        lastCfg := i,
        tbl := applyConfig s.tbl i c } := by
  unfold stepLine
  rw [if_neg (by simpa using from_makefile_nonblank hc)]
  simp only [hc]
  rw [if_pos (by simp [hEnd])]

/-- `stepLine` on a non-blank non-configuration line. -/
theorem stepLine_nonconfig_eq (N : Nat) (s : ParseState) (i : Nat) (line : String)
    (hb : pyStripL line.data ≠ []) (hc : from_makefile line = none) :
    stepLine N s (i, line) =
      { s with
        saw := s.saw || startsWithL line.data headerMarker,
        after := if ((s.saw || startsWithL line.data headerMarker) &&
            s.after == N && !(startsWithL (pyStripL line.data) hashL)) = true
          then i else s.after,
        cfgEnd := if (decide (s.cfgStart < N) && s.cfgEnd == N) = true
          then s.lastCfg + 1 else s.cfgEnd } := by
  unfold stepLine
  rw [if_neg (by simpa using hb)]
  simp only [hc]
  by_cases hcc : (decide (s.cfgStart < N) && s.cfgEnd == N) = true
  · rw [if_pos hcc, if_pos hcc]
  · rw [if_neg hcc, if_neg hcc]

/-- `stepLine` leaves the table and block state alone once the block closed. -/
theorem stepLine_done (N : Nat) (s : ParseState) (p : Nat × String)
    (h : s.cfgEnd ≠ N) :
    (stepLine N s p).tbl = s.tbl ∧ (stepLine N s p).cfgEnd = s.cfgEnd := by
  obtain ⟨i, line⟩ := p
  have hce : (s.cfgEnd == N) = false := by simpa using h
  by_cases hb : pyStripL line.data = []
  · rw [stepLine_blank_eq N s i line hb]
    by_cases hsa : (s.saw && s.after == N) = true
    · rw [if_pos hsa]
      exact ⟨rfl, rfl⟩
    · rw [if_neg hsa]
      exact ⟨rfl, rfl⟩
  · cases hc : from_makefile line with
    | some c =>
      unfold stepLine
      rw [if_neg (by simpa using hb)]
      simp only [hc]
      rw [if_neg (by simp [hce])]
      exact ⟨rfl, rfl⟩
    | none =>
      rw [stepLine_nonconfig_eq N s i line hb hc]
      have hcc : (decide (s.cfgStart < N) && s.cfgEnd == N) = false := by simp [hce]
      exact ⟨rfl, by simp [hcc]⟩

/-- The fold changes nothing in the table once the block closed. -/
theorem foldTbl_done (N : Nat) :
    ∀ (ps : List (Nat × String)) (s : ParseState), s.cfgEnd ≠ N →
      (ps.foldl (stepLine N) s).tbl = s.tbl := by
  intro ps
  induction ps with
  | nil => intro s _; rfl
  | cons p t ih =>
    intro s h
    rw [List.foldl_cons]
    obtain ⟨h1, h2⟩ := stepLine_done N s p h
    rw [ih (stepLine N s p) (by rw [h2]; exact h), h1]

/-- While the block is open, folding the scanning step applies `applyConfig`
to exactly the declarations `scanDecls` collects, in order.  `started` mirrors
whether `cfg_start` has been set; indices are the true (increasing, in-range)
line numbers. -/
theorem sim_fold (N : Nat) :
    ∀ (ps : List (Nat × String)) (s : ParseState) (started : Bool),
      s.cfgEnd = N →
      s.cfgStart ≤ N →
      (started = false ↔ s.cfgStart = N) →
      (∀ q ∈ ps, q.1 < N) →
      List.Pairwise (fun (a b : Nat × String) => a.1 < b.1) ps →
      (started = true → ∀ q ∈ ps, s.lastCfg < q.1) →
      (ps.foldl (stepLine N) s).tbl = runDecls s.tbl (scanDecls started ps) := by
  intro ps
  induction ps with
  | nil => intro s started _ _ _ _ _ _; rfl
  | cons p rest ih =>
    intro s started hEnd hStartLe hCouple hLt hPW hLast
    obtain ⟨i, line⟩ := p
    have hiN : i < N := hLt (i, line) (by simp)
    rw [List.foldl_cons]
    by_cases hb : pyStripL line.data = []
    · rw [scanDecls_blank started i line rest hb]
      rw [stepLine_blank_eq N s i line hb]
      by_cases hsa : (s.saw && s.after == N) = true
      · rw [if_pos hsa]
        exact ih { s with after := i } started hEnd hStartLe hCouple
          (fun q hq => hLt q (List.mem_cons_of_mem _ hq))
          ((List.pairwise_cons.mp hPW).2)
          (fun h q hq => hLast h q (List.mem_cons_of_mem _ hq))
      · rw [if_neg hsa]
        exact ih s started hEnd hStartLe hCouple
          (fun q hq => hLt q (List.mem_cons_of_mem _ hq))
          ((List.pairwise_cons.mp hPW).2)
          (fun h q hq => hLast h q (List.mem_cons_of_mem _ hq))
    · cases hc : from_makefile line with
      | some c =>
        rw [scanDecls_config started i line c rest hc]
        have hs' := stepLine_config_eq N s i line c hc hEnd
        have hend2 : (stepLine N s (i, line)).cfgEnd = N := by
          rw [hs']
          exact hEnd
        have hstart2 : (stepLine N s (i, line)).cfgStart =
            if (s.cfgStart == N) = true then i else s.cfgStart := by
          rw [hs']
        have hlast2 : (stepLine N s (i, line)).lastCfg = i := by
          rw [hs']
        have htbl2 : (stepLine N s (i, line)).tbl = applyConfig s.tbl i c := by
          rw [hs']
        have hstartle2 : (stepLine N s (i, line)).cfgStart ≤ N := by
          rw [hstart2]
          by_cases hcs : (s.cfgStart == N) = true
          · rw [if_pos hcs]
            omega
          · rw [if_neg hcs]
            exact hStartLe
        have hne2 : (stepLine N s (i, line)).cfgStart ≠ N := by
          rw [hstart2]
          by_cases hcs : (s.cfgStart == N) = true
          · rw [if_pos hcs]
            omega
          · rw [if_neg hcs]
            simpa using hcs
        have hres := ih (stepLine N s (i, line)) true hend2 hstartle2
          ⟨fun h => absurd h (by simp), fun h => absurd h hne2⟩
          (fun q hq => hLt q (List.mem_cons_of_mem _ hq))
          ((List.pairwise_cons.mp hPW).2)
          (by
            intro _ q hq
            rw [hlast2]
            exact List.rel_of_pairwise_cons hPW hq)
        rw [hres, htbl2, runDecls_cons]
      | none =>
        rw [scanDecls_nonconfig started i line rest hb hc]
        have hs' := stepLine_nonconfig_eq N s i line hb hc
        cases started with
        | false =>
          have hcs : s.cfgStart = N := hCouple.mp rfl
          have hcond : (decide (s.cfgStart < N) && s.cfgEnd == N) = false := by
            simp [hcs]
          have hend2 : (stepLine N s (i, line)).cfgEnd = N := by
            rw [hs']
            simp only [hcond]
            simpa using hEnd
          have hstart2 : (stepLine N s (i, line)).cfgStart = s.cfgStart := by
            rw [hs']
          have htbl2 : (stepLine N s (i, line)).tbl = s.tbl := by
            rw [hs']
          have hlast2 : (stepLine N s (i, line)).lastCfg = s.lastCfg := by
            rw [hs']
          have hres := ih (stepLine N s (i, line)) false hend2
            (by rw [hstart2]; exact hStartLe)
            (by rw [hstart2]; exact ⟨fun _ => hcs, fun _ => rfl⟩)
            (fun q hq => hLt q (List.mem_cons_of_mem _ hq))
            ((List.pairwise_cons.mp hPW).2)
            (fun h => absurd h (by simp))
          rw [hres, htbl2]
          rfl
        | true =>
          have hcs : s.cfgStart ≠ N := fun h => absurd (hCouple.mpr h) (by simp)
          have hlt : s.cfgStart < N := Nat.lt_of_le_of_ne hStartLe hcs
          have hcond : (decide (s.cfgStart < N) && s.cfgEnd == N) = true := by
            simp [hlt, hEnd]
          have hlast_i : s.lastCfg < i := hLast rfl (i, line) (by simp)
          have hend2 : (stepLine N s (i, line)).cfgEnd = s.lastCfg + 1 := by
            rw [hs']
            simp [hcond]
          have htbl2 : (stepLine N s (i, line)).tbl = s.tbl := by
            rw [hs']
          rw [foldTbl_done N rest (stepLine N s (i, line))
            (by rw [hend2]; omega), htbl2]
          rfl

/-- Every index produced by `enumFrom n` is at least `n` and below
`n + length`. -/
theorem mem_enumFrom_bound :
    ∀ (ls : List String) (n : Nat) (q : Nat × String),
      q ∈ ls.enumFrom n → n ≤ q.1 ∧ q.1 < n + ls.length := by
  intro ls
  induction ls with
  | nil => intro n q hq; simp [List.enumFrom] at hq
  | cons x xs ih =>
    intro n q hq
    simp only [List.enumFrom, List.mem_cons] at hq
    cases hq with
    | inl h =>
      subst h
      show n ≤ n ∧ n < n + (x :: xs).length
      simp only [List.length_cons]
      omega
    | inr h =>
      have := ih (n + 1) q h
      simp only [List.length_cons]
      omega

/-- The indices of `enumFrom n` are strictly increasing. -/
theorem pairwise_enumFrom :
    ∀ (ls : List String) (n : Nat),
      List.Pairwise (fun (a b : Nat × String) => a.1 < b.1) (ls.enumFrom n) := by
  intro ls
  induction ls with
  | nil => intro n; simp [List.enumFrom]
  | cons x xs ih =>
    intro n
    simp only [List.enumFrom]
    refine List.Pairwise.cons ?_ (ih (n + 1))
    intro q hq
    have := mem_enumFrom_bound xs (n + 1) q hq
    simp only []
    omega

/-- The table built by `_parse_makefile` is exactly the fold of `applyConfig`
over the block's declarations, followed by the default synthesis. -/
theorem parseMakefile_runDecls (lines : List String) (known : List String) :
    (parseMakefile lines known).tbl =
      applyDefaults (runDecls ⟨[], [], initG2c known, []⟩ (blockDecls lines)) := by
  show applyDefaults ((lines.enum.foldl (stepLine lines.length)
      (initState lines.length known)).tbl) = _
  congr 1
  have := sim_fold lines.length lines.enum (initState lines.length known) false
    rfl (Nat.le_refl _) ⟨fun _ => rfl, fun _ => rfl⟩
    (fun q hq => by
      have := mem_enumFrom_bound lines 0 q hq
      omega)
    (pairwise_enumFrom lines 0)
    (fun h => absurd h (by simp))
  exact this

/-! ### Routing of unknown-generator configurations (C2) -/

/-- `alistGet` succeeds exactly at the stored keys. -/
theorem alistGet_isSome_iff_mem {β : Type} (d : List (String × β)) (k : String) :
    (alistGet d k).isSome = true ↔ k ∈ d.map Prod.fst := by
  constructor
  · intro hs
    by_contra hmem
    rw [(alistGet_none_iff d k).mpr hmem] at hs
    exact absurd hs (by simp)
  · intro hmem
    cases h : alistGet d k with
    | none => exact absurd ((alistGet_none_iff d k).mp h) (by simp [hmem])
    | some v => rfl

/-- `applyConfig` never adds or removes a generator key of the dict. -/
theorem applyConfig_keys (t : Table) (i : Nat) (c : BuildConfig) :
    (applyConfig t i c).g2c.map Prod.fst = t.g2c.map Prod.fst := by
  cases hg : alistGet t.g2c c.gen with
  | none => rw [applyConfig_unknown hg]
  | some inner =>
    have hgs : (alistGet t.g2c c.gen).isSome = true := by rw [hg]; rfl
    cases hs : alistGet inner c.subcfg with
    | none =>
      rw [applyConfig_fresh hg hs]
      exact alistInsert_keys_present _ _ _ hgs
    | some old =>
      rw [applyConfig_override hg hs]
      exact alistInsert_keys_present _ _ _ hgs

/-- `applyConfig` only appends to the invalid list. -/
theorem applyConfig_invalid_mono {x : BuildConfig} {t : Table}
    (h : x ∈ t.invalid) (i : Nat) (c : BuildConfig) :
    x ∈ (applyConfig t i c).invalid := by
  cases hg : alistGet t.g2c c.gen with
  | none =>
    rw [applyConfig_unknown hg]
    exact List.mem_append_left _ h
  | some inner =>
    cases hs : alistGet inner c.subcfg with
    | none =>
      rw [applyConfig_fresh hg hs]
      exact h
    | some old =>
      rw [applyConfig_override hg hs]
      exact List.mem_append_left _ h

/-- `runDecls` only appends to the invalid list. -/
theorem runDecls_invalid_mono :
    ∀ (ds : List (Nat × BuildConfig)) (t : Table) (x : BuildConfig),
      x ∈ t.invalid → x ∈ (runDecls t ds).invalid := by
  intro ds
  induction ds with
  | nil => intro t x h; exact h
  | cons p rest ih =>
    intro t x h
    obtain ⟨i, c⟩ := p
    rw [runDecls_cons]
    exact ih _ x (applyConfig_invalid_mono h i c)

/-- A declaration of the block whose generator key is absent from the dict
lands in the invalid list. -/
theorem runDecls_unknown_mem :
    ∀ (ds : List (Nat × BuildConfig)) (t : Table) (i : Nat) (c : BuildConfig),
      (i, c) ∈ ds → alistGet t.g2c c.gen = none →
      c ∈ (runDecls t ds).invalid := by
  intro ds
  induction ds with
  | nil => intro t i c h _; exact absurd h (by simp)
  | cons p rest ih =>
    intro t i c hmem hnone
    obtain ⟨j, d⟩ := p
    rw [runDecls_cons]
    rcases List.mem_cons.mp hmem with hhead | htail
    · have hcd : j = i ∧ d = c := by
        constructor
        · exact congrArg Prod.fst hhead.symm
        · exact congrArg Prod.snd hhead.symm
      apply runDecls_invalid_mono rest
      rw [hcd.2, applyConfig_unknown hnone]
      exact List.mem_append_right _ (by simp)
    · apply ih _ i c htail
      apply (alistGet_none_iff _ _).mpr
      rw [applyConfig_keys t j d]
      exact (alistGet_none_iff _ _).mp hnone

/-- A generator absent from the registry has no key in the initial dict. -/
theorem initG2c_get_none {known : List String} {g : String} (h : g ∉ known) :
    alistGet (initG2c known) g = none := by
  cases hg : alistGet (initG2c known) g with
  | none => rfl
  | some inner =>
    have hs : (alistGet (initG2c known) g).isSome = true := by rw [hg]; rfl
    rcases (foldInsert_get_isSome known [] g).mp hs with h2 | h2
    · exact absurd h2 h
    · exact absurd h2 (by simp [alistGet])

/-- Every valid configuration of the finished table names a known generator. -/
theorem mem_configurations_known {lines known : List String} {c : BuildConfig}
    (h : c ∈ (parseMakefile lines known).tbl.configurations) : c.gen ∈ known := by
  have hInv := tblInv_parseMakefile lines known
  have hfil : c ∈ ((parseMakefile lines known).tbl.configurations).filter
      (pairB c.gen c.subcfg) :=
    List.mem_filter.mpr ⟨h, pairB_self c.gen c.subcfg rfl rfl⟩
  rw [hInv.uniq c.gen c.subcfg] at hfil
  cases hg : alistGet2 (parseMakefile lines known).tbl.g2c c.gen c.subcfg with
  | none => rw [hg] at hfil; exact absurd hfil (by simp)
  | some v =>
    have hsome : (alistGet (parseMakefile lines known).tbl.g2c c.gen).isSome = true := by
      rw [alistGet2_eq] at hg
      cases hgg : alistGet (parseMakefile lines known).tbl.g2c c.gen with
      | none => rw [hgg] at hg; exact absurd hg (by simp)
      | some inner => rfl
    exact hInv.keysKnown c.gen hsome

/-- Claim C2 (amended): a configuration whose generator is absent from the
registry never appears among the valid configurations, and every such
declaration *processed within the configuration block* is placed in the
invalid list.  (The restriction to the block is necessary: a configuration
line after the block end is ignored entirely and lands in neither list.) -/
theorem c2_unknown_generator (lines known : List String) (c : BuildConfig)
    (hunk : c.gen ∉ known) :
    c ∉ (parseMakefile lines known).tbl.configurations ∧
      ∀ i, (i, c) ∈ blockDecls lines →
        c ∈ (parseMakefile lines known).tbl.invalid := by
  constructor
  · intro hmem
    exact hunk (mem_configurations_known hmem)
  · intro i hmem
    rw [parseMakefile_runDecls, applyDefaults_invalid]
    exact runDecls_unknown_mem (blockDecls lines) _ i c hmem (initG2c_get_none hunk)

theorem c2_unknown_generator_witness :
    (⟨("bar"), (""), ("2"), some ("CFG__bar = 2\n")⟩ : BuildConfig).gen ∉
        [("foo" : String)] ∧
      ((⟨("bar"), (""), ("2"), some ("CFG__bar = 2\n")⟩ : BuildConfig) ∉
          (parseMakefile [("CFG__bar = 2\n")] [("foo")]).tbl.configurations ∧
        ∀ i, (i, (⟨("bar"), (""), ("2"), some ("CFG__bar = 2\n")⟩ : BuildConfig)) ∈
            blockDecls [("CFG__bar = 2\n")] →
          (⟨("bar"), (""), ("2"), some ("CFG__bar = 2\n")⟩ : BuildConfig) ∈
            (parseMakefile [("CFG__bar = 2\n")] [("foo")]).tbl.invalid) :=
  ⟨by decide,
   c2_unknown_generator [("CFG__bar = 2\n")] [("foo")]
     (⟨("bar"), (""), ("2"), some ("CFG__bar = 2\n")⟩ : BuildConfig) (by decide)⟩

/-- Counterexample to claim C2 as stated: the third line parses as a
configuration with generator `bar`, unknown to the registry `[foo]`, but the
block is already closed by the line `x`, so the configuration is ignored: the
invalid list of the finished parse is empty (and the valid list holds only the
`foo` configuration). -/
theorem c2_counterexample :
    from_makefile ("CFG__bar = 2\n") =
        some ⟨("bar"), (""), ("2"), some ("CFG__bar = 2\n")⟩ ∧
      ("bar" : String) ∉ [("foo" : String)] ∧
      (parseMakefile [("CFG__foo = 1\n"), ("x\n"), ("CFG__bar = 2\n")]
          [("foo")]).tbl.invalid = [] := by
  decide

/-! ### Override completeness (C1) -/

/-- `pairB` is false exactly when the pair differs. -/
theorem pairB_false_iff {g sc : String} {c : BuildConfig} :
    pairB g sc c = false ↔ ¬(g = c.gen ∧ sc = c.subcfg) := by
  constructor
  · intro h hand
    rw [pairB_self g sc hand.1.symm hand.2.symm] at h
    exact absurd h (by simp)
  · exact pairB_eq_false

/-- `dropLast` peels a head off a list with at least two elements. -/
theorem dropLast_cons₂ {α : Type} (a b : α) (l : List α) :
    (a :: b :: l).dropLast = a :: (b :: l).dropLast := rfl

/-- The initial two-level dict holds no configuration. -/
theorem initG2c_get2_none (known : List String) (g sc : String) :
    alistGet2 (initG2c known) g sc = none := by
  rw [alistGet2_eq]
  cases hg : alistGet (initG2c known) g with
  | none => rfl
  | some inner =>
    have hempty : inner = [] :=
      foldInsert_get_empty known []
        (by intro g2 i2 h2; exact absurd h2 (by simp [alistGet])) g inner hg
    rw [hempty]
    simp [alistGet]

/-- A key of the registry is present in the initial dict. -/
theorem initG2c_get_isSome {known : List String} {g : String} (h : g ∈ known) :
    (alistGet (initG2c known) g).isSome = true :=
  (foldInsert_get_isSome known [] g).mpr (Or.inl h)

/-- The override history of a (generator, subconfig) pair along a run of the
configuration loop: starting from a table whose dict already knows the
generator `g`, the invalid entries matching the pair after the run are those
matching before, then the current claimant (if any) and the matching processed
declarations in order — minus the final survivor; and the dict's claimant after
the run is that final survivor. -/
theorem runDecls_pair :
    ∀ (ds : List (Nat × BuildConfig)) (known : List String) (t : Table),
      TblInv known t → ∀ g sc, (alistGet t.g2c g).isSome = true →
      (runDecls t ds).invalid.filter (pairB g sc) =
          t.invalid.filter (pairB g sc) ++
            ((alistGet2 t.g2c g sc).toList ++
              (ds.map Prod.snd).filter (pairB g sc)).dropLast ∧
        alistGet2 (runDecls t ds).g2c g sc =
          ((alistGet2 t.g2c g sc).toList ++
            (ds.map Prod.snd).filter (pairB g sc)).getLast? := by
  intro ds
  induction ds with
  | nil =>
    intro known t hInv g sc hg
    constructor
    · show t.invalid.filter (pairB g sc) = _
      cases hc : alistGet2 t.g2c g sc <;> simp
    · show alistGet2 t.g2c g sc = _
      cases hc : alistGet2 t.g2c g sc <;> simp [hc]
  | cons p rest ih =>
    intro known t hInv g sc hg
    obtain ⟨i, c⟩ := p
    rw [runDecls_cons]
    have hInv' : TblInv known (applyConfig t i c) := tblInv_applyConfig hInv i c
    have hg' : (alistGet (applyConfig t i c).g2c g).isSome = true := by
      rw [alistGet_isSome_iff_mem, applyConfig_keys, ← alistGet_isSome_iff_mem]
      exact hg
    obtain ⟨hI1, hI2⟩ := ih known (applyConfig t i c) hInv' g sc hg'
    by_cases hpb : pairB g sc c = true
    · have hcg : c.gen = g ∧ c.subcfg = sc := by
        unfold pairB at hpb
        simp only [Bool.and_eq_true, beq_iff_eq] at hpb
        exact hpb
      obtain ⟨inner, hginner⟩ : ∃ inner, alistGet t.g2c c.gen = some inner := by
        rw [hcg.1]
        cases hgi : alistGet t.g2c g with
        | none => rw [hgi] at hg; exact absurd hg (by simp)
        | some inner => exact ⟨inner, rfl⟩
      have hcur' : alistGet2 (applyConfig t i c).g2c g sc = some c := by
        cases hs : alistGet inner c.subcfg with
        | none =>
          rw [applyConfig_fresh hginner hs]
          show alistGet2 (alistInsert t.g2c c.gen (alistInsert inner c.subcfg c))
            g sc = some c
          rw [alistGet2_insert t.g2c c.gen c.subcfg inner c hginner g sc]
          rw [if_pos ⟨hcg.1.symm, hcg.2.symm⟩]
        | some old =>
          rw [applyConfig_override hginner hs]
          show alistGet2 (alistInsert t.g2c c.gen (alistInsert inner c.subcfg c))
            g sc = some c
          rw [alistGet2_insert t.g2c c.gen c.subcfg inner c hginner g sc]
          rw [if_pos ⟨hcg.1.symm, hcg.2.symm⟩]
      cases hs : alistGet inner c.subcfg with
      | none =>
        have hcur : alistGet2 t.g2c g sc = none := by
          rw [alistGet2_eq, ← hcg.1, hginner]
          show alistGet inner sc = none
          rw [← hcg.2]
          exact hs
        have hinv' : (applyConfig t i c).invalid = t.invalid := by
          rw [applyConfig_fresh hginner hs]
        constructor
        · rw [hI1, hinv', hcur', hcur]
          simp [List.filter_cons, hpb]
        · rw [hI2, hcur', hcur]
          simp [List.filter_cons, hpb]
      | some old =>
        have hof : old.gen = c.gen ∧ old.subcfg = c.subcfg :=
          hInv.pairFields (c.gen, inner) (alistGet_mem hginner)
            (c.subcfg, old) (alistGet_mem hs)
        have hpbold : pairB g sc old = true :=
          pairB_self g sc (hof.1.trans hcg.1) (hof.2.trans hcg.2)
        have hcur : alistGet2 t.g2c g sc = some old := by
          rw [alistGet2_eq, ← hcg.1, hginner]
          show alistGet inner sc = some old
          rw [← hcg.2]
          exact hs
        have hinv' : (applyConfig t i c).invalid = t.invalid ++ [old] := by
          rw [applyConfig_override hginner hs]
        constructor
        · rw [hI1, hinv', hcur', hcur]
          rw [List.filter_append]
          simp only [List.map_cons, List.filter_cons, hpb, hpbold, if_true,
            Option.toList_some, List.singleton_append, List.cons_append,
            List.nil_append, List.filter_nil, dropLast_cons₂, List.append_assoc]
        · rw [hI2, hcur', hcur]
          simp only [List.map_cons, List.filter_cons, hpb, if_true,
            Option.toList_some, List.singleton_append, List.cons_append,
            List.nil_append]
          rw [List.getLast?_cons_cons]
    · have hpbf : pairB g sc c = false := by
        revert hpb
        cases pairB g sc c <;> simp
      have hne : ¬(g = c.gen ∧ sc = c.subcfg) := pairB_false_iff.mp hpbf
      have hcur' : alistGet2 (applyConfig t i c).g2c g sc = alistGet2 t.g2c g sc := by
        cases hgc : alistGet t.g2c c.gen with
        | none => rw [applyConfig_unknown hgc]
        | some inner =>
          cases hs : alistGet inner c.subcfg with
          | none =>
            rw [applyConfig_fresh hgc hs]
            show alistGet2 (alistInsert t.g2c c.gen (alistInsert inner c.subcfg c))
              g sc = _
            rw [alistGet2_insert t.g2c c.gen c.subcfg inner c hgc g sc]
            rw [if_neg hne]
          | some old =>
            rw [applyConfig_override hgc hs]
            show alistGet2 (alistInsert t.g2c c.gen (alistInsert inner c.subcfg c))
              g sc = _
            rw [alistGet2_insert t.g2c c.gen c.subcfg inner c hgc g sc]
            rw [if_neg hne]
      have hinvf : (applyConfig t i c).invalid.filter (pairB g sc) =
          t.invalid.filter (pairB g sc) := by
        cases hgc : alistGet t.g2c c.gen with
        | none =>
          rw [applyConfig_unknown hgc]
          show (t.invalid ++ [c]).filter (pairB g sc) = _
          rw [List.filter_append]
          simp [List.filter_cons, hpbf]
        | some inner =>
          cases hs : alistGet inner c.subcfg with
          | none =>
            rw [applyConfig_fresh hgc hs]
          | some old =>
            have hof : old.gen = c.gen ∧ old.subcfg = c.subcfg :=
              hInv.pairFields (c.gen, inner) (alistGet_mem hgc)
                (c.subcfg, old) (alistGet_mem hs)
            have hpboldf : pairB g sc old = false := by
              apply pairB_eq_false
              rw [hof.1, hof.2]
              exact hne
            rw [applyConfig_override hgc hs]
            show (t.invalid ++ [old]).filter (pairB g sc) = _
            rw [List.filter_append]
            simp [List.filter_cons, hpboldf]
      constructor
      · rw [hI1, hinvf, hcur']
        simp [List.filter_cons, hpbf]
      · rw [hI2, hcur']
        simp [List.filter_cons, hpbf]

/-- Default synthesis does not disturb a pair already claimed in the dict. -/
theorem applyDefaults_get2_of_some {t : Table} {g sc : String} {c : BuildConfig}
    (h : alistGet2 t.g2c g sc = some c) :
    alistGet2 (applyDefaults t).g2c g sc = some c := by
  rw [alistGet2_eq] at h ⊢
  cases hg : alistGet t.g2c g with
  | none => rw [hg] at h; exact absurd h (by simp)
  | some inner =>
    rw [hg] at h
    simp only [Option.some_bind] at h
    have hne : inner.isEmpty = false := by
      cases hi : inner with
      | nil => rw [hi] at h; exact absurd h (by simp [alistGet])
      | cons a l => rfl
    have hnil : inner ≠ [] := by
      intro hn
      rw [hn] at hne
      exact absurd hne (by simp)
    rw [applyDefaults_g2c, defaults_get, hg]
    simp [hne, h, hnil]

/-- The override history of a pair over the whole configuration block, from
the initial table. -/
theorem blockDecls_pair (lines known : List String) (g sc : String)
    (hgk : g ∈ known) :
    (runDecls ⟨[], [], initG2c known, []⟩ (blockDecls lines)).invalid.filter
          (pairB g sc) =
        (((blockDecls lines).map Prod.snd).filter (pairB g sc)).dropLast ∧
      alistGet2 (runDecls ⟨[], [], initG2c known, []⟩ (blockDecls lines)).g2c g sc =
        (((blockDecls lines).map Prod.snd).filter (pairB g sc)).getLast? := by
  obtain ⟨h1, h2⟩ := runDecls_pair (blockDecls lines) known
    ⟨[], [], initG2c known, []⟩ (tblInv_init known) g sc (initG2c_get_isSome hgk)
  have hc0 : alistGet2 (Table.mk [] [] (initG2c known) []).g2c g sc = none :=
    initG2c_get2_none known g sc
  constructor
  · rw [h1, hc0]
    simp
  · rw [h2, hc0]
    simp

/-- Claim C1 (amended): if a (generator, subconfig) pair with a known
generator is declared at least once *within the configuration block*, then
exactly one valid entry for the pair survives — the last such declaration —
and the earlier declarations for the pair appear in the invalid list in
declaration order.  (The restriction to the block is necessary: a
configuration line after the block end is ignored entirely and does not
participate in the override chain.) -/
theorem c1_override_completeness (lines known : List String) (g sc : String)
    (hgk : g ∈ known)
    (hne : ((blockDecls lines).map Prod.snd).filter (pairB g sc) ≠ []) :
    ((parseMakefile lines known).tbl.configurations).filter (pairB g sc) =
        ((((blockDecls lines).map Prod.snd).filter (pairB g sc)).getLast?).toList ∧
      ((parseMakefile lines known).tbl.invalid).filter (pairB g sc) =
        (((blockDecls lines).map Prod.snd).filter (pairB g sc)).dropLast := by
  obtain ⟨h1, h2⟩ := blockDecls_pair lines known g sc hgk
  obtain ⟨x, hx⟩ : ∃ x,
      (((blockDecls lines).map Prod.snd).filter (pairB g sc)).getLast? = some x := by
    cases hd : (((blockDecls lines).map Prod.snd).filter (pairB g sc)).getLast? with
    | none => exact absurd (List.getLast?_eq_none_iff.mp hd) hne
    | some x => exact ⟨x, rfl⟩
  constructor
  · have hInvF := tblInv_parseMakefile lines known
    rw [hInvF.uniq g sc, parseMakefile_runDecls]
    rw [applyDefaults_get2_of_some (by rw [h2]; exact hx), hx]
  · rw [parseMakefile_runDecls, applyDefaults_invalid, h1]

theorem c1_override_completeness_witness :
    (("foo" : String)) ∈ [("foo" : String)] ∧
      ((blockDecls [("CFG__foo = 1\n"), ("CFG__foo = 2\n")]).map Prod.snd).filter
          (pairB ("foo") ("")) ≠ [] ∧
      (((parseMakefile [("CFG__foo = 1\n"), ("CFG__foo = 2\n")]
              [("foo")]).tbl.configurations).filter (pairB ("foo") ("")) =
          ((((blockDecls [("CFG__foo = 1\n"), ("CFG__foo = 2\n")]).map
                Prod.snd).filter (pairB ("foo") (""))).getLast?).toList ∧
        ((parseMakefile [("CFG__foo = 1\n"), ("CFG__foo = 2\n")]
              [("foo")]).tbl.invalid).filter (pairB ("foo") ("")) =
          (((blockDecls [("CFG__foo = 1\n"), ("CFG__foo = 2\n")]).map
              Prod.snd).filter (pairB ("foo") (""))).dropLast) :=
  ⟨by decide, by decide,
   c1_override_completeness [("CFG__foo = 1\n"), ("CFG__foo = 2\n")] [("foo")]
     ("foo") ("") (by decide) (by decide)⟩

/-- Counterexample to claim C1 as stated: the pair (`foo`, `''`) is declared
twice in the file — once inside the block and once after it, with a closing
line `x` in between — and the generator is known; yet the surviving valid
entry is the *first* declaration (value `1`), not the last, and the invalid
list is empty rather than holding the other declaration. -/
theorem c1_counterexample :
    from_makefile ("CFG__foo = 1\n") =
        some ⟨("foo"), (""), ("1"), some ("CFG__foo = 1\n")⟩ ∧
      from_makefile ("CFG__foo = 2\n") =
        some ⟨("foo"), (""), ("2"), some ("CFG__foo = 2\n")⟩ ∧
      (parseMakefile [("CFG__foo = 1\n"), ("x\n"), ("CFG__foo = 2\n")]
          [("foo")]).tbl.configurations =
        [⟨("foo"), (""), ("1"), some ("CFG__foo = 1\n")⟩] ∧
      (parseMakefile [("CFG__foo = 1\n"), ("x\n"), ("CFG__foo = 2\n")]
          [("foo")]).tbl.invalid = [] := by
  decide

/-! ### The configuration-line pattern (C3) -/

/-- Dropping the matched `takeWhile` prefix leaves `dropWhile`. -/
theorem drop_takeWhile_length (p : Char → Bool) :
    ∀ l : List Char, l.drop (l.takeWhile p).length = l.dropWhile p := by
  intro l
  induction l with
  | nil => rfl
  | cons a t ih =>
    by_cases hp : p a = true
    · simp [List.takeWhile_cons, List.dropWhile_cons, hp, ih]
    · simp [List.takeWhile_cons, List.dropWhile_cons, hp]

/-- The head of a `dropWhile` residue fails the predicate. -/
theorem dropWhile_head_not (p : Char → Bool) :
    ∀ (l : List Char) (c : Char) (rs : List Char),
      l.dropWhile p = c :: rs → p c = false := by
  intro l
  induction l with
  | nil => intro c rs h; exact absurd h (by simp)
  | cons a t ih =>
    intro c rs h
    by_cases hp : p a = true
    · rw [List.dropWhile_cons_of_pos hp] at h
      exact ih c rs h
    · rw [List.dropWhile_cons_of_neg hp] at h
      cases h
      exact Bool.eq_false_iff.mpr hp

/-- A character strictly inside the `takeWhile` prefix satisfies the
predicate. -/
theorem word_of_lt_takeWhile (p : Char → Bool) :
    ∀ (l : List Char) (m : Nat) (c : Char) (rs : List Char),
      l.drop m = c :: rs → m < (l.takeWhile p).length → p c = true := by
  intro l
  induction l with
  | nil => intro m c rs h _; rw [List.drop_nil] at h; exact absurd h (by simp)
  | cons a t ih =>
    intro m c rs h hlt
    by_cases hp : p a = true
    · rw [List.takeWhile_cons_of_pos hp] at hlt
      cases m with
      | zero =>
        rw [List.drop_zero] at h
        cases h
        exact hp
      | succ m =>
        exact ih m c rs h (by simpa using Nat.lt_of_succ_lt_succ hlt)
    · rw [List.takeWhile_cons_of_neg hp] at hlt
      exact absurd hlt (by simp)

/-- `take`/`drop` step at a known head of the remainder. -/
theorem take_succ_of_drop {l : List Char} {m : Nat} {c : Char} {rs : List Char}
    (h : l.drop m = c :: rs) :
    l.take (m + 1) = l.take m ++ [c] ∧ l.drop (m + 1) = rs := by
  have hget : l[m]? = some c := by
    rw [← List.head?_drop, h]
    rfl
  constructor
  · rw [List.take_succ, hget]
    rfl
  · have hdd : l.drop (m + 1) = (l.drop m).drop 1 := by
      rw [List.drop_drop]
    rw [hdd, h]
    rfl

/-- The lazy generator search of the source regex enumerates the candidate
generator lengths in increasing order and returns the first that lets the
remainder of the pattern match. -/
theorem searchGen_range (l' : List Char) :
    ∀ (fuel m : Nat), 1 ≤ m → m ≤ (l'.takeWhile isWordChar).length →
      fuel = (l'.takeWhile isWordChar).length - m →
      searchGen (l'.take m) (l'.drop m) =
        (List.range' m (fuel + 1)).findSome?
          (fun n => (afterGen (l'.drop n)).map
            (fun sv => (l'.take n, sv.1, sv.2))) := by
  intro fuel
  induction fuel with
  | zero =>
    intro m hm1 hmle hf
    have hmeq : m = (l'.takeWhile isWordChar).length := by omega
    have hdw : l'.drop m = l'.dropWhile isWordChar := by
      rw [hmeq]
      exact drop_takeWhile_length _ l'
    cases hd : l'.drop m with
    | nil =>
      have ha : afterGen (l'.drop m) = none := by
        rw [hd]
        rfl
      simp [searchGen, List.range'_succ, List.findSome?_cons,
        List.findSome?_nil, ha]
    | cons c rs =>
      have hcw : isWordChar c = false :=
        dropWhile_head_not _ l' c rs (hdw ▸ hd)
      rw [searchGen]
      cases ha : afterGen (c :: rs) with
      | some sv =>
        have ha' : afterGen (l'.drop m) = some sv := by rw [hd]; exact ha
        simp [List.range'_succ, List.findSome?_cons, List.findSome?_nil,
          ha, ha']
      | none =>
        have ha' : afterGen (l'.drop m) = none := by rw [hd]; exact ha
        simp [List.range'_succ, List.findSome?_cons, List.findSome?_nil,
          ha, ha', hcw]
  | succ fuel ih =>
    intro m hm1 hmle hf
    have hmlt : m < (l'.takeWhile isWordChar).length := by omega
    obtain ⟨c, rs, hd⟩ : ∃ c rs, l'.drop m = c :: rs := by
      cases hd : l'.drop m with
      | nil =>
        exfalso
        have hlen : l'.length - m = 0 := by
          rw [← List.length_drop, hd]
          rfl
        have hle := (List.takeWhile_sublist (l := l') isWordChar).length_le
        omega
      | cons c rs => exact ⟨c, rs, rfl⟩
    have hw : isWordChar c = true := word_of_lt_takeWhile _ l' m c rs hd hmlt
    obtain ⟨htk, hdr⟩ := take_succ_of_drop hd
    rw [hd, searchGen]
    cases ha : afterGen (c :: rs) with
    | some sv =>
      have ha' : afterGen (l'.drop m) = some sv := by rw [hd]; exact ha
      simp [List.range'_succ, List.findSome?_cons, ha, ha']
    | none =>
      have ha' : afterGen (l'.drop m) = none := by rw [hd]; exact ha
      have hstep : searchGen (l'.take m ++ [c]) rs =
          searchGen (l'.take (m + 1)) (l'.drop (m + 1)) := by
        rw [htk, hdr]
      simp only [hw, if_true]
      rw [hstep, ih (m + 1) (by omega) (by omega) (by omega)]
      conv_rhs => rw [List.range'_succ]
      simp [List.findSome?_cons, ha']

/-- The configuration-line pattern as the (amended) specification words it:
the line must *begin* with the marker `CFG__`; the generator is the shortest
nonempty prefix of the following run of word characters such that the
remainder of the line matches the rest of the pattern, namely one whitespace
character or a double underscore with an optional subconfig identifier
(`afterGen`), then filler up to an `=`, then the value trimmed of surrounding
whitespace and extending to the end of the line.  The candidate generator
lengths are enumerated in increasing order (`List.range' 1 maxLen`), making
the lazy shortest-generator disambiguation explicit. -/
def specParseAmended (line : String) : Option BuildConfig :=
  if startsWithL line.data markerL then
    ((List.range' 1 ((line.data.drop 5).takeWhile isWordChar).length).findSome?
        (fun n => (afterGen ((line.data.drop 5).drop n)).map
          (fun sv => ((line.data.drop 5).take n, sv.1, sv.2)))).map
      (fun r => { gen := String.mk r.1, subcfg := subcfgOr r.2.1,
                  val := r.2.2, orig := some line })
  else none

/-- The original claim's reading of the tail after a marker occurrence: a
nonempty word-character generator starts right after the marker, and an `=`
occurs somewhere later in the line.  (The claim's optional
double-underscore/subconfig group and its arbitrary non-greedy filler impose
no constraint on *which* lines match, since the filler may absorb both; the
claim's value group always matches the remainder of the line.) -/
def claimAfterMarker (l : List Char) : Bool :=
  match l with
  | c :: rest => isWordChar c && rest.contains '='
  | [] => false

/-- The original claim's matcher: the line *contains* the marker `CFG__`
somewhere (not necessarily at the start), followed as in
`claimAfterMarker`. -/
def claimMarkerScan : List Char → Bool
  | [] => false
  | c :: rest =>
    (startsWithL (c :: rest) markerL && claimAfterMarker ((c :: rest).drop 5)) ||
      claimMarkerScan rest

/-- The original claim C3's classification of a single line. -/
def claimPatternOrig (line : String) : Bool := claimMarkerScan line.data

/-- Claim C3 (amended): the parser classifies a line as a configuration
exactly per the amended pattern: the line *begins* with `CFG__`, the
generator is a nonempty run of word characters *followed by a whitespace
character or a double underscore* (with optional subconfig identifier), then
filler, `=`, and the trimmed value to end of line; among the admissible
generator lengths the shortest is chosen (lazy match).  Stated as an exact
equivalence between the source parser and the spec-worded matcher. -/
theorem c3_parse_pattern (line : String) :
    from_makefile line = specParseAmended line := by
  unfold from_makefile specParseAmended
  by_cases hs : startsWithL line.data markerL
  · rw [if_pos hs, if_pos hs]
    cases hd : line.data.drop 5 with
    | nil => simp
    | cons c rest =>
      by_cases hw : isWordChar c = true
      · have hmax : 1 ≤ ((c :: rest).takeWhile isWordChar).length := by
          rw [List.takeWhile_cons_of_pos hw]
          simp
        have hsg : searchGen [c] rest =
            (List.range' 1
                (((c :: rest).takeWhile isWordChar).length - 1 + 1)).findSome?
              (fun n => (afterGen ((c :: rest).drop n)).map
                (fun sv => ((c :: rest).take n, sv.1, sv.2))) :=
          searchGen_range (c :: rest)
            (((c :: rest).takeWhile isWordChar).length - 1) 1
            (Nat.le_refl 1) hmax rfl
        have hcount : ((c :: rest).takeWhile isWordChar).length - 1 + 1 =
            ((c :: rest).takeWhile isWordChar).length := by omega
        rw [hcount] at hsg
        simp only [hw, if_true, hsg]
      · have hmax : ((c :: rest).takeWhile isWordChar).length = 0 := by
          rw [List.takeWhile_cons_of_neg hw]
          rfl
        simp [hw, hmax]
  · rw [if_neg hs, if_neg hs]

/-- Counterexample to claim C3 as stated: the line `' CFG__foo = 1'` contains
the marker (not at the start) and the line `'CFG__foo=1'` has no whitespace
or double underscore between the generator and the `=`; both satisfy the
claim's contains-the-marker pattern, yet the parser — whose regex is anchored
at the start of the line and requires a whitespace or `__` separator right
after the generator — rejects both. -/
theorem c3_counterexample :
    claimPatternOrig (" CFG__foo = 1") = true ∧
      from_makefile (" CFG__foo = 1") = none ∧
      claimPatternOrig ("CFG__foo=1") = true ∧
      from_makefile ("CFG__foo=1") = none := by
  decide
